import Mathlib

/-!
Verification development for the LookML project analyzer
(`src/app.py` and `src/list_used_views.py`).

Texts are shallowly embedded as `List Char`.  The regular expressions used by
the source are compiled by hand into deterministic character scanners; each
scanner definition documents the regex it embeds.  All regexes of the source
have the property that greedy/lazy backtracking is deterministic on the
character classes involved (the classes of adjacent subpatterns are disjoint),
which the proofs below exploit.  The embedding covers ASCII whitespace, the
fragment relevant to the analyzed configuration texts.
-/

/-- Python regex word character class `[a-zA-Z0-9_]` (ASCII fragment of `\w`). -/
def isWordChar (c : Char) : Bool :=
  (('a' ≤ c && c ≤ 'z') || ('A' ≤ c && c ≤ 'Z') || ('0' ≤ c && c ≤ '9') || c = '_')

/-- Python regex whitespace class `\s` (ASCII fragment). -/
def isSpaceChar (c : Char) : Bool :=
  (c = ' ' || c = '\t' || c = '\n' || c = '\r' || c = '\x0b' || c = '\x0c')

/-- Identifier head class `[a-zA-Z_]` of the SQL-function heuristic regex. -/
def isIdentStart (c : Char) : Bool :=
  (('a' ≤ c && c ≤ 'z') || ('A' ≤ c && c ≤ 'Z') || c = '_')

/-- `strip_lookml_comments` (both source files): `re.sub(r"#.*", "", text)`.
Scanned one character at a time; the `Bool` is true while inside a comment
(between a `#` and the next newline, the newline itself preserved). -/
def stripGo : Bool → List Char → List Char
  | _, [] => []
  | true, '\n' :: rest => '\n' :: stripGo false rest
  | true, _ :: rest => stripGo true rest
  | false, '#' :: rest => stripGo true rest
  | false, c :: rest => c :: stripGo false rest

/-- `strip_lookml_comments(text)` from the source. -/
def strip_lookml_comments (text : List Char) : List Char := stripGo false text

/-- One `{name, body}` record produced by `extract_named_blocks`. -/
structure Block where
  name : List Char
  body : List Char
deriving DecidableEq

/-- Attempt of the regex `\b<kw>\s*:\s*([a-zA-Z0-9_]+)\s*\{` at the start of
suffix `s` (the `\b` is checked by the caller).  Returns the captured name and
the offset (from the start of `s`) of the opening brace, i.e. `m.end()-1`.
Greedy `\s*` runs need no backtracking because `:` , identifier characters and
`{` are not whitespace. -/
def matchPat (kw : List Char) (s : List Char) : Option (List Char × Nat) :=
  if s.take kw.length = kw then
    match (s.drop kw.length).dropWhile isSpaceChar with
    | ':' :: s3 =>
      if (s3.dropWhile isSpaceChar).takeWhile isWordChar = [] then none
      else
        match ((s3.dropWhile isSpaceChar).dropWhile isWordChar).dropWhile isSpaceChar with
        | '{' :: _ =>
          some ((s3.dropWhile isSpaceChar).takeWhile isWordChar,
            kw.length + ((s.drop kw.length).takeWhile isSpaceChar).length + 1 +
              (s3.takeWhile isSpaceChar).length +
              ((s3.dropWhile isSpaceChar).takeWhile isWordChar).length +
              (((s3.dropWhile isSpaceChar).dropWhile isWordChar).takeWhile isSpaceChar).length)
        | _ => none
    | _ => none
  else none

/-- Core of `find_matching_brace`: scan with a depth counter, returning the
offset of the first `}` that brings the depth (started at `d`) to zero.
Mirrors the loop of `find_matching_brace` in `src/app.py` (depth starts at 1
just after the opening brace); the list version of `src/list_used_views.py`
starts at the brace itself with depth 0 and is behaviourally identical. -/
def findCloseAux : Nat → List Char → Option Nat
  | _, [] => none
  | d, c :: rest =>
    if c = '{' then (findCloseAux (d + 1) rest).map (· + 1)
    else if c = '}' then
      if d = 1 then some 0 else (findCloseAux (d - 1) rest).map (· + 1)
    else (findCloseAux d rest).map (· + 1)

/-- `find_matching_brace(text, open_brace_index)`; `none` embeds the `-1`
sentinel of the source. -/
def find_matching_brace (text : List Char) (obi : Nat) : Option Nat :=
  (findCloseAux 1 (text.drop (obi + 1))).map (· + (obi + 1))

/-- The `pattern.finditer` loop of `extract_named_blocks`: positions are tried
left to right; after a successful match the scan resumes at the match's end
(`skip` counts positions still inside the previous match's span, `pw` records
whether the previous character is a word character, for the leading `\b`).
Returns `(position, captured name, offset of the opening brace)` triples. -/
def scanGo (kw : List Char) : Nat → Nat → Bool → List Char → List (Nat × List Char × Nat)
  | _, _, _, [] => []
  | pos, skip + 1, _, c :: rest => scanGo kw (pos + 1) skip (isWordChar c) rest
  | pos, 0, pw, c :: rest =>
    if pw then scanGo kw (pos + 1) 0 (isWordChar c) rest
    else
      match matchPat kw (c :: rest) with
      | some (n, off) => (pos, n, off) :: scanGo kw (pos + 1) off (isWordChar c) rest
      | none => scanGo kw (pos + 1) 0 (isWordChar c) rest

/-- `extract_named_blocks(text, keyword)` annotated with the match position of
each returned block. -/
def extract_named_blocks_pos (text kw : List Char) : List (Nat × Block) :=
  (scanGo kw 0 0 false text).filterMap (fun m =>
    match find_matching_brace text (m.1 + m.2.2) with
    | some close =>
      some (m.1, ⟨m.2.1, (text.drop (m.1 + m.2.2 + 1)).take (close - (m.1 + m.2.2 + 1))⟩)
    | none => none)

/-- `extract_named_blocks(text, keyword)` from the source: all balanced
`keyword: name { ... }` blocks, in document order; occurrences without a
matching closing brace are dropped. -/
def extract_named_blocks (text kw : List Char) : List Block :=
  (extract_named_blocks_pos text kw).map Prod.snd

/-- Fuel-indexed closure of the extractor: run it, then re-run it recursively
on each returned body.  Every returned body is strictly shorter than its text
(it sits strictly between the keyword and the closing brace), so
`text.length` fuel already exhausts the recursion at every nesting depth. -/
def extractRecFuel (kw : List Char) : Nat → List Char → List Block
  | 0, _ => []
  | fuel + 1, text =>
    extract_named_blocks text kw ++
      (extract_named_blocks text kw).flatMap (fun b => extractRecFuel kw fuel b.body)

/-- Running the block extractor and recursively re-running it on each
returned body, as the specification describes for recovering nested
same-keyword blocks. -/
def extractRec (kw text : List Char) : List Block := extractRecFuel kw text.length text

/-- Balanced braces: equally many `{` and `}` and no prefix closing more
braces than it opened. -/
def bracesBalanced (t : List Char) : Bool :=
  (t.count '{' == t.count '}') &&
    (List.range (t.length + 1)).all
      (fun m => decide ((t.take m).count '}' ≤ (t.take m).count '{'))

/-- `startsWithL n h`: `h` begins with `n` (list form of Python str startswith). -/
def startsWithL (n h : List Char) : Bool := h.take n.length = n

/-- Python substring containment `needle in hay`. -/
def containsSub (n : List Char) : List Char → Bool
  | [] => startsWithL n []
  | c :: rest => startsWithL n (c :: rest) || containsSub n rest

/-- One branch (`from` or `view_name`) of the override regex
`\b(?:from|view_name)\s*:\s*([a-zA-Z0-9_]+)\b` tried at the start of `s`:
literal keyword, optional whitespace, `:`, optional whitespace, identifier.
The trailing `\b` is vacuous: the greedy identifier run is maximal, so the
following character can never be a word character. -/
def matchKwColonName (kw : List Char) (s : List Char) : Option (List Char) :=
  if s.take kw.length = kw then
    match (s.drop kw.length).dropWhile isSpaceChar with
    | ':' :: s3 =>
      if (s3.dropWhile isSpaceChar).takeWhile isWordChar = [] then none
      else some ((s3.dropWhile isSpaceChar).takeWhile isWordChar)
    | _ => none
  else none

/-- The `re.search` scan of `parse_view_override` / the primary-name search of
`analyze_repo`: leftmost position where `from` or `view_name` matches (both
start with a word character, so the leading `\b` is the `pw` check; the two
alternatives can never match at the same position). -/
def overrideGo : Bool → List Char → Option (List Char)
  | _, [] => none
  | pw, c :: rest =>
    if pw then overrideGo (isWordChar c) rest
    else
      match matchKwColonName "from".toList (c :: rest) with
      | some n => some n
      | none =>
        match matchKwColonName "view_name".toList (c :: rest) with
        | some n => some n
        | none => overrideGo (isWordChar c) rest

/-- `parse_view_override(block_body)` from `src/list_used_views.py`; also the
inline `re.search(r"\b(?:from|view_name)\s*:\s*([a-zA-Z0-9_]+)\b", ...)` of
`analyze_repo` in `src/app.py`. -/
def parse_view_override (body : List Char) : Option (List Char) := overrideGo false body

/-- One row of `parse_explore_usage` in `src/list_used_views.py`. -/
structure UsageRow where
  explore : List Char
  role : List Char
  view_name : List Char
  join_name : List Char
deriving DecidableEq

/-- The primary row appended for an explore block by `parse_explore_usage`. -/
def primaryUsageRow (exp : Block) : UsageRow :=
  ⟨exp.name, "primary".toList, (parse_view_override exp.body).getD exp.name, []⟩

/-- The row appended for a join block of an explore by `parse_explore_usage`. -/
def joinUsageRow (exp j : Block) : UsageRow :=
  ⟨exp.name, "join".toList, (parse_view_override j.body).getD j.name, j.name⟩

/-- `parse_explore_usage(model_content)` from `src/list_used_views.py`,
with the two appending loops rendered as left folds. -/
def parse_explore_usage (model_content : List Char) : List UsageRow :=
  let content := strip_lookml_comments model_content
  (extract_named_blocks content "explore".toList).foldl
    (fun rows exp =>
      (extract_named_blocks exp.body "join".toList).foldl
        (fun rs j => rs ++ [joinUsageRow exp j])
        (rows ++ [primaryUsageRow exp]))
    []

/-- Per-entity metadata stored by `map_views_to_metadata` in `src/app.py`. -/
structure ViewMeta where
  folder : List Char
  path : List Char
deriving DecidableEq

/-- The `dimension` and `measure` field blocks of a view file's text, in the
order `analyze_repo` concatenates them (`dims + measures`). -/
def view_field_blocks (content : List Char) : List Block :=
  extract_named_blocks (strip_lookml_comments content) "dimension".toList
    ++ extract_named_blocks (strip_lookml_comments content) "measure".toList

/-- Coverage fraction computed by `get_view_description_coverage` from the
text of a readable view file: `dimension` and `measure` blocks are extracted
from the comment-stripped text and the described fraction is returned, with
`1.0` for a view without fields.  (`ℚ` embeds Python's float division; the
quantities involved are exact.) -/
def coverage_of_content (content : List Char) : ℚ :=
  if (view_field_blocks content).length = 0 then 1
  else ((view_field_blocks content).countP
      (fun f => containsSub "description:".toList f.body) : ℚ)
    / ((view_field_blocks content).length : ℚ)

/-- `get_view_description_coverage(view_path)` from `src/app.py`.  The file
system is abstracted as `readFile : path → Option content`; a `none` path
embeds the falsy/absent path and a `none` read embeds a missing or unreadable
file (`os.path.exists` failing or `open` raising). -/
def get_view_description_coverage (readFile : List Char → Option (List Char)) :
    Option (List Char) → Option ℚ
  | none => none
  | some path =>
    match readFile path with
    | none => none
    | some content => some (coverage_of_content content)

/-- `_has_primary_key(view_content)` from `src/app.py`. -/
def has_primary_key (view_content : List Char) : Bool :=
  (extract_named_blocks (strip_lookml_comments view_content) "dimension".toList).any
    (fun dim => containsSub "primary_key: yes".toList dim.body)

/-- One row of the DataFrame built by `analyze_repo` in `src/app.py`. -/
structure AppRow where
  modelPath : List Char
  exploreName : List Char
  role : List Char
  viewName : List Char
  viewFolder : List Char
  coverage : Option ℚ
  extendsOn : List Char
deriving DecidableEq

/-- Resolved primary view name of an explore in `analyze_repo`:
`from`/`view_name` override, else the explore's own name. -/
def primary_view_name (exp : Block) : List Char :=
  (parse_view_override exp.body).getD exp.name

/-- Resolved target view name of a join in `analyze_repo`. -/
def app_join_view_name (j : Block) : List Char :=
  (parse_view_override j.body).getD j.name

/-- The `"primary"` row appended by `analyze_repo` for an explore.
`reg` abstracts the `view_metadata` dict, `readFile` the file system and
`exts` the `view_extensions` dict. -/
def app_primary_row (reg : List Char → Option ViewMeta)
    (readFile : List Char → Option (List Char)) (exts : List Char → Option (List Char))
    (modelRel : List Char) (exp : Block) : AppRow :=
  let v := primary_view_name exp
  { modelPath := modelRel, exploreName := exp.name, role := "primary".toList,
    viewName := v,
    viewFolder := ((reg v).map ViewMeta.folder).getD "Unknown".toList,
    coverage := get_view_description_coverage readFile ((reg v).map ViewMeta.path),
    extendsOn := (exts v).getD [] }

/-- The `"join"` row appended by `analyze_repo` for a join of an explore. -/
def app_join_row (reg : List Char → Option ViewMeta)
    (readFile : List Char → Option (List Char)) (exts : List Char → Option (List Char))
    (modelRel : List Char) (exp j : Block) : AppRow :=
  let v := app_join_view_name j
  { modelPath := modelRel, exploreName := exp.name, role := "join".toList,
    viewName := v,
    viewFolder := ((reg v).map ViewMeta.folder).getD "Unknown".toList,
    coverage := get_view_description_coverage readFile ((reg v).map ViewMeta.path),
    extendsOn := (exts v).getD [] }

/-- The join blocks extracted from an explore body by `analyze_repo`. -/
def app_joins (exp : Block) : List Block := extract_named_blocks exp.body "join".toList

/-- The rows `analyze_repo` appends for one explore: exactly the primary row
followed by one join row per extracted join block. -/
def app_explore_rows (reg : List Char → Option ViewMeta)
    (readFile : List Char → Option (List Char)) (exts : List Char → Option (List Char))
    (modelRel : List Char) (exp : Block) : List AppRow :=
  app_primary_row reg readFile exts modelRel exp ::
    (app_joins exp).map (app_join_row reg readFile exts modelRel exp)

/-- The rows `analyze_repo` appends while processing one model file. -/
def app_model_rows (reg : List Char → Option ViewMeta)
    (readFile : List Char → Option (List Char)) (exts : List Char → Option (List Char))
    (modelRel content : List Char) : List AppRow :=
  (extract_named_blocks (strip_lookml_comments content) "explore".toList).flatMap
    (app_explore_rows reg readFile exts modelRel)

/-- The `views_no_pk` test of `analyze_repo` for one join: the join's resolved
view is either registered with an unreadable file or a file lacking a
`primary_key: yes` dimension, or it is unregistered (and its nonempty name is
truthy). -/
def app_join_no_pk (reg : List Char → Option ViewMeta)
    (readFile : List Char → Option (List Char)) (j : Block) : Bool :=
  match reg (app_join_view_name j) with
  | some meta =>
    match readFile meta.path with
    | some viewContent => !has_primary_key viewContent
    | none => true
  | none => app_join_view_name j ≠ []

/-- Names added to the `views_no_pk` set while processing one model file
(list form; Python's `set` only deduplicates, membership is unchanged). -/
def app_views_no_pk (reg : List Char → Option ViewMeta)
    (readFile : List Char → Option (List Char)) (content : List Char) : List (List Char) :=
  (extract_named_blocks (strip_lookml_comments content) "explore".toList).flatMap
    (fun exp => ((app_joins exp).filter (app_join_no_pk reg readFile)).map app_join_view_name)

/-- Leading-space/lazy-content backtracking of `re.search(r"sql_on:\s*(.+?)\s*;;", body, re.DOTALL)`:
`tailMatchSemis s` decides whether `\s*;;` matches at the start of `s`
(greedy whitespace then the two semicolons; no other backtracking can
succeed, since `;` is not whitespace). -/
def tailMatchSemis (s : List Char) : Bool := startsWithL ";;".toList (s.dropWhile isSpaceChar)

/-- Minimal length `L ≥ 1` of the lazy group `(.+?)` such that `\s*;;`
matches right after it: the first proper suffix of `t` at which
`tailMatchSemis` holds. -/
def minEndGo : List Char → Option Nat
  | [] => none
  | _ :: rest => if tailMatchSemis rest then some 1 else (minEndGo rest).map (· + 1)

/-- The part of the `sql_on` regex after the literal `sql_on:`:
`\s*(.+?)\s*;;` with Python's backtracking order.  The greedy `\s*` first
takes the whole whitespace run; the lazy group then grows from length 1.  If
no group end works, the `\s*` backtracks by one space, which can only succeed
when `;;` starts immediately after the whitespace run — the group is then the
final whitespace character. -/
def sqlOnRestMatch (s : List Char) : Option (List Char) :=
  let sp := s.takeWhile isSpaceChar
  let t := s.dropWhile isSpaceChar
  match minEndGo t with
  | some L => some (t.take L)
  | none => if tailMatchSemis t then sp.getLast?.map (fun c => [c]) else none

/-- Leftmost-match scan of `re.search(r"sql_on:\s*(.+?)\s*;;", body, re.DOTALL)`,
returning the captured group. -/
def searchSqlOn : List Char → Option (List Char)
  | [] => none
  | c :: rest =>
    if startsWithL "sql_on:".toList (c :: rest) then
      match sqlOnRestMatch ((c :: rest).drop 7) with
      | some g => some g
      | none => searchSqlOn rest
    else searchSqlOn rest

/-- `re.search(r"[a-zA-Z_][a-zA-Z0-9_]*\s*\(", g)` as a Boolean: some position
starts with an identifier character, and after the greedy word-character run
and whitespace run an opening parenthesis follows (backtracking cannot help:
shortening the runs puts a word or whitespace character where `(` must be). -/
def fnCallSearch : List Char → Bool
  | [] => false
  | c :: rest =>
    (isIdentStart c && ((rest.dropWhile isWordChar).dropWhile isSpaceChar).head? = some '(')
      || fnCallSearch rest

/-- The SQL-function-in-join-condition heuristic of `analyze_repo`
(`src/app.py` lines 233-235): a join body is flagged when the first
`sql_on: ... ;;` clause exists and its content matches
`[a-zA-Z_][a-zA-Z0-9_]*\s*\(`. -/
def hasSqlOnFunction (body : List Char) : Bool :=
  match searchSqlOn body with
  | some g => fnCallSearch g
  | none => false

/-- `(explore name, join name)` pairs added to the `joins_sql_func` set while
processing one model file (the source renders each pair into a display
string; the pair carries the same data). -/
def app_joins_sql_func (content : List Char) : List (List Char × List Char) :=
  (extract_named_blocks (strip_lookml_comments content) "explore".toList).flatMap
    (fun exp => ((app_joins exp).filter (fun j => hasSqlOnFunction j.body)).map
      (fun j => (exp.name, j.name)))

/-- Attempt of the view-header regex `^\s*view:\s*([a-zA-Z0-9_]+)`
(`re.MULTILINE`) at the start of suffix `s` (the `^` anchor is checked by the
caller).  Returns the captured name and the matched length.  The `\s*` runs
are deterministic (`v` and identifier characters are not whitespace); note
`\s` includes newlines, so a match may span lines. -/
def matchHeader (s : List Char) : Option (List Char × Nat) :=
  let sp1 := s.takeWhile isSpaceChar
  let s1 := s.dropWhile isSpaceChar
  if s1.take 5 = "view:".toList then
    let s2 := s1.drop 5
    let sp2 := s2.takeWhile isSpaceChar
    let name := (s2.dropWhile isSpaceChar).takeWhile isWordChar
    if name = [] then none
    else some (name, sp1.length + 5 + sp2.length + name.length)
  else none

/-- The `view_name_pattern.findall` scan of `map_views_to_metadata`:
`lineStart` tracks where `^` holds (start of text or just after a newline),
`skip` counts positions inside the previous match's span. -/
def headerGo : Nat → Bool → List Char → List (List Char)
  | _, _, [] => []
  | skip + 1, _, c :: rest => headerGo skip (c = '\n') rest
  | 0, lineStart, c :: rest =>
    if lineStart then
      match matchHeader (c :: rest) with
      | some (name, len) => name :: headerGo (len - 1) (c = '\n') rest
      | none => headerGo 0 (c = '\n') rest
    else headerGo 0 (c = '\n') rest

/-- `view_name_pattern.findall(content)` of `map_views_to_metadata`. -/
def view_header_names (content : List Char) : List (List Char) := headerGo 0 true content

/-- One `.view.lkml` file visited by the `os.walk` loop of
`map_views_to_metadata`: its path, its path relative to the views directory,
its first-level folder, its base name (file name minus `.view.lkml`) and its
text. -/
structure VFile where
  path : List Char
  rel : List Char
  folder : List Char
  base : List Char
  content : List Char
deriving DecidableEq

/-- `found_views` for one file in `map_views_to_metadata`: the header names,
or the filename-derived name when there are none. -/
def file_found_views (f : VFile) : List (List Char) :=
  let fs := view_header_names f.content
  if fs = [] then [f.base] else fs

/-- The `view_metadata_map` entries written while processing one file. -/
def file_regs (f : VFile) : List (List Char × ViewMeta) :=
  (file_found_views f).map (fun n => (n, ⟨f.folder, f.path⟩))

/-- The `files_with_multiple_views` entries appended while processing a list
of files (one relative path per file with more than one header). -/
def multi_view_files (files : List VFile) : List (List Char) :=
  files.flatMap (fun f => if 1 < (view_header_names f.content).length then [f.rel] else [])

/-- A single dict assignment `map[name] = meta`. -/
def regWrite (m : List Char → Option ViewMeta) (r : List Char × ViewMeta) :
    List Char → Option ViewMeta :=
  fun k => if k = r.1 then some r.2 else m k

/-- The `view_metadata_map` dict built by `map_views_to_metadata` over a file
list: every found name is assigned in file order, later writes winning. -/
def registry_map (files : List VFile) : List Char → Option ViewMeta :=
  files.foldl (fun m f => (file_regs f).foldl regWrite m) (fun _ => none)

/-- The naming-convention regex `re.match(r"^[a-z0-9_]+$", v)` of
`generate_assessment` as a Boolean: a nonempty snake run covering the whole
name (or all of it but a final newline, which Python's `$` tolerates). -/
def snakeMatch (v : List Char) : Bool :=
  let run := v.takeWhile (fun c => (('a' ≤ c && c ≤ 'z') || ('0' ≤ c && c ≤ '9') || c = '_'))
  let rest := v.drop run.length
  !(run = []) && (rest = [] || rest = ['\n'])

/-- `unknown_views` of `generate_assessment`: the distinct view names of rows
whose folder is `"Unknown"`. -/
def unknown_views (rows : List AppRow) : List (List Char) :=
  ((rows.filter (fun r => r.viewFolder = "Unknown".toList)).map AppRow.viewName).dedup

/-- `non_snake_views` of `generate_assessment`: the distinct truthy view names
failing the snake-case regex, minus the unresolved (`"Unknown"`-folder) ones. -/
def non_snake_views (rows : List AppRow) : List (List Char) :=
  ((rows.map AppRow.viewName).dedup).filter
    (fun v => !(v = []) && !snakeMatch v && !(decide (v ∈ unknown_views rows)))

/-- Per-view description statistics of `get_view_description_stats` in
`src/list_used_views.py` (the percentage is kept abstract: no claim touches
its rounding). -/
structure DescStat where
  fieldsWithDescription : Nat
  totalFields : Nat
  descriptionPercentage : ℚ
deriving DecidableEq

/-- One data row of the CSV written by `main` in `src/list_used_views.py`. -/
structure CsvRow where
  modelPath : List Char
  exploreName : List Char
  role : List Char
  viewName : List Char
  joinName : List Char
  folder : List Char
  stat : Option DescStat
  extendsOn : List Char
deriving DecidableEq

/-- Outcome of a `main` run in `src/list_used_views.py`: the fatal abort when
the models directory is missing (an error is printed and no report is
produced), the distinct no-data message (also without a report), or the CSV
report. -/
inductive RunOutcome where
  | fatalNoModelsDir : RunOutcome
  | noData : RunOutcome
  | report : List CsvRow → RunOutcome
deriving DecidableEq

/-- The CSV row built by `main` for one usage row of one model file. -/
def enrichUsageRow (folderMap : List Char → Option (List Char))
    (stats : List Char → Option DescStat) (exts : List Char → Option (List Char))
    (modelPath : List Char) (r : UsageRow) : CsvRow :=
  { modelPath := modelPath, exploreName := r.explore, role := r.role,
    viewName := r.view_name, joinName := r.join_name,
    folder := (folderMap r.view_name).getD "Ukjent".toList,
    stat := stats r.view_name,
    extendsOn := (exts r.view_name).getD [] }

/-- The CSV data rows accumulated over the model files by `main`: an
unreadable file (`none` content) is skipped with a warning and contributes
nothing; a readable one contributes its enriched usage rows. -/
def model_csv_rows (folderMap : List Char → Option (List Char))
    (stats : List Char → Option DescStat) (exts : List Char → Option (List Char))
    (files : List (List Char × Option (List Char))) : List CsvRow :=
  files.flatMap (fun f =>
    match f.2 with
    | none => []
    | some content => (parse_explore_usage content).map (enrichUsageRow folderMap stats exts f.1))

/-- The control flow of `main` in `src/list_used_views.py`: abort when the
models directory is absent; report "no explores/joins found" when no model
file yields a usage row; otherwise write the CSV. -/
def lookml_main (folderMap : List Char → Option (List Char))
    (stats : List Char → Option DescStat) (exts : List Char → Option (List Char))
    (modelsDirExists : Bool) (files : List (List Char × Option (List Char))) : RunOutcome :=
  if modelsDirExists = false then RunOutcome.fatalNoModelsDir
  else if model_csv_rows folderMap stats exts files = [] then RunOutcome.noData
  else RunOutcome.report (model_csv_rows folderMap stats exts files)

/-! ### Character class facts -/

theorem space_not_word {c : Char} (h : isSpaceChar c = true) : isWordChar c = false := by
  simp only [isSpaceChar, Bool.or_eq_true, decide_eq_true_eq] at h
  rcases h with ((((h | h) | h) | h) | h) | h <;> subst h <;> decide

theorem word_not_space {c : Char} (h : isWordChar c = true) : isSpaceChar c = false := by
  by_contra hs
  rw [Bool.not_eq_false] at hs
  rw [space_not_word hs] at h
  exact Bool.false_ne_true h

/-! ### Helper lemmas about character runs -/

theorem takeWhile_run {p : Char → Bool} {u v : List Char} (hu : u.all p = true)
    (hv : ∀ c, v.head? = some c → p c = false) :
    (u ++ v).takeWhile p = u ∧ (u ++ v).dropWhile p = v := by
  induction u with
  | nil =>
    cases v with
    | nil => exact ⟨rfl, rfl⟩
    | cons c w =>
      simp [List.takeWhile_cons, List.dropWhile_cons, hv c rfl]
  | cons a u ih =>
    simp only [List.all_cons, Bool.and_eq_true] at hu
    have h2 := ih hu.2
    simp [List.takeWhile_cons, List.dropWhile_cons, hu.1, h2.1, h2.2]

/-- A list splits uniquely as a maximal `p`-run followed by the rest. -/
theorem max_run_unique {p : Char → Bool} : ∀ {u v x y : List Char},
    u ++ x = v ++ y → u.all p = true → v.all p = true →
    (∀ c, x.head? = some c → p c = false) → (∀ c, y.head? = some c → p c = false) →
    u = v ∧ x = y := by
  intro u
  induction u with
  | nil =>
    intro v x y h hu hv hx hy
    cases v with
    | nil => simpa using h
    | cons b v =>
      simp only [List.nil_append] at h
      subst h
      simp only [List.all_cons, Bool.and_eq_true] at hv
      have := hx b rfl
      rw [hv.1] at this
      exact absurd this (by simp)
  | cons a u ih =>
    intro v x y h hu hv hx hy
    cases v with
    | nil =>
      simp only [List.nil_append] at h
      rw [← h] at hy
      simp only [List.all_cons, Bool.and_eq_true] at hu
      have := hy a rfl
      rw [hu.1] at this
      exact absurd this (by simp)
    | cons b v =>
      simp only [List.cons_append, List.cons.injEq] at h
      simp only [List.all_cons, Bool.and_eq_true] at hu hv
      have := ih h.2 hu.2 hv.2 hx hy
      exact ⟨by rw [h.1, this.1], this.2⟩

theorem head?_of_word_run {n rest : List Char} (hne : n ≠ []) (hw : n.all isWordChar = true) :
    ∀ c, (n ++ rest).head? = some c → isSpaceChar c = false := by
  intro c hc
  cases n with
  | nil => exact absurd rfl hne
  | cons a m =>
    simp only [List.cons_append, List.head?_cons, Option.some.injEq] at hc
    subst hc
    simp only [List.all_cons, Bool.and_eq_true] at hw
    exact word_not_space hw.1

theorem head?_space_run {sp rest : List Char} {b : Char} (hsp : sp.all isSpaceChar = true)
    (hb : isWordChar b = false) :
    ∀ c, (sp ++ b :: rest).head? = some c → isWordChar c = false := by
  intro c hc
  cases sp with
  | nil =>
    simp only [List.nil_append, List.head?_cons, Option.some.injEq] at hc
    subst hc
    exact hb
  | cons a m =>
    simp only [List.cons_append, List.head?_cons, Option.some.injEq] at hc
    subst hc
    simp only [List.all_cons, Bool.and_eq_true] at hsp
    exact space_not_word hsp.1

theorem head?_of_space_brace {sp rest : List Char} (hsp : sp.all isSpaceChar = true) :
    ∀ c, (sp ++ '{' :: rest).head? = some c → isWordChar c = false :=
  head?_space_run hsp (by decide)

/-! ### Characterization of the keyword-block matcher -/

/-- `matchPat` succeeds exactly on texts of the shape
`kw ⬝ spaces ⬝ ':' ⬝ spaces ⬝ name ⬝ spaces ⬝ '{' ⬝ …`, capturing the name and
the offset of the brace.  (The maximality of each run is forced by the
disjointness of the character classes.) -/
theorem matchPat_eq_some_iff {kw s n : List Char} {off : Nat} :
    matchPat kw s = some (n, off) ↔
    ∃ sp1 sp2 sp3 rest,
      s = kw ++ (sp1 ++ ':' :: (sp2 ++ (n ++ (sp3 ++ '{' :: rest)))) ∧
      sp1.all isSpaceChar = true ∧ sp2.all isSpaceChar = true ∧ sp3.all isSpaceChar = true ∧
      n ≠ [] ∧ n.all isWordChar = true ∧
      off = kw.length + sp1.length + 1 + sp2.length + n.length + sp3.length := by
  constructor
  · intro h
    unfold matchPat at h
    split at h
    case isFalse => exact absurd h (by simp)
    case isTrue htake =>
      split at h
      case h_2 => exact absurd h (by simp)
      case h_1 s3 heq1 =>
        split at h
        case isTrue => exact absurd h (by simp)
        case isFalse hne =>
          split at h
          case h_2 => exact absurd h (by simp)
          case h_1 s6 heq2 =>
            simp only [Option.some.injEq, Prod.mk.injEq] at h
            obtain ⟨hn, hoff⟩ := h
            refine ⟨(s.drop kw.length).takeWhile isSpaceChar, s3.takeWhile isSpaceChar,
              ((s3.dropWhile isSpaceChar).dropWhile isWordChar).takeWhile isSpaceChar, s6,
              ?_, List.all_takeWhile, List.all_takeWhile, List.all_takeWhile,
              fun hcon => hne (by rw [hn]; exact hcon), ?_, ?_⟩
            · conv_lhs => rw [← List.take_append_drop kw.length s]
              rw [htake]
              congr 1
              conv_lhs => rw [← List.takeWhile_append_dropWhile isSpaceChar (s.drop kw.length)]
              rw [heq1]
              congr 1
              conv_lhs => rw [← List.takeWhile_append_dropWhile isSpaceChar s3]
              congr 1
              conv_lhs =>
                rw [← List.takeWhile_append_dropWhile isWordChar (s3.dropWhile isSpaceChar)]
              rw [hn]
              congr 1
              conv_lhs =>
                rw [← List.takeWhile_append_dropWhile isSpaceChar
                  ((s3.dropWhile isSpaceChar).dropWhile isWordChar)]
              rw [heq2]
            · rw [← hn]; exact List.all_takeWhile
            · rw [← hoff, ← hn]
  · rintro ⟨sp1, sp2, sp3, rest, hs, h1, h2, h3, hne, hw, hoff⟩
    subst hs
    unfold matchPat
    have htake : (kw ++ (sp1 ++ ':' :: (sp2 ++ (n ++ (sp3 ++ '{' :: rest))))).take kw.length
        = kw := List.take_left kw _
    have r1 := takeWhile_run (p := isSpaceChar) (u := sp1)
      (v := ':' :: (sp2 ++ (n ++ (sp3 ++ '{' :: rest)))) h1
      (by intro c hc; simp only [List.head?_cons, Option.some.injEq] at hc; subst hc; decide)
    have r2 := takeWhile_run (p := isSpaceChar) (u := sp2) (v := n ++ (sp3 ++ '{' :: rest)) h2
      (head?_of_word_run hne hw)
    have r3 := takeWhile_run (p := isWordChar) (u := n) (v := sp3 ++ '{' :: rest) hw
      (head?_of_space_brace h3)
    have r4 := takeWhile_run (p := isSpaceChar) (u := sp3) (v := '{' :: rest) h3
      (by intro c hc; simp only [List.head?_cons, Option.some.injEq] at hc; subst hc; decide)
    simp only [htake, List.drop_left, r1.1, r1.2, r2.1, r2.2, r3.1, r3.2, r4.1, r4.2, hne,
      if_true, eq_self_iff_true, ite_true, ite_false, if_false, Option.some.injEq,
      Prod.mk.injEq]
    exact ⟨trivial, by omega⟩

theorem matchPat_nil {kw : List Char} (hne : kw ≠ []) : matchPat kw [] = none := by
  cases h : matchPat kw [] with
  | none => rfl
  | some r =>
    obtain ⟨n, off⟩ := r
    obtain ⟨sp1, sp2, sp3, rest, hs, -⟩ := matchPat_eq_some_iff.mp h
    cases kw with
    | nil => exact absurd rfl hne
    | cons a m => exact absurd hs (by simp)

/-- The matched span of `matchPat`, flattened: everything before the brace. -/
theorem matchPat_decomp {kw s n : List Char} {off : Nat}
    (h : matchPat kw s = some (n, off)) :
    ∃ pre rest, s = pre ++ '{' :: rest ∧ pre.length = off := by
  obtain ⟨sp1, sp2, sp3, rest, hs, -, -, -, -, -, hoff⟩ := matchPat_eq_some_iff.mp h
  refine ⟨kw ++ sp1 ++ ':' :: sp2 ++ n ++ sp3, rest, ?_, ?_⟩
  · rw [hs]; simp [List.append_assoc]
  · simp only [List.length_append, List.length_cons]
    omega

theorem matchPat_drop_off {kw s n : List Char} {off : Nat}
    (h : matchPat kw s = some (n, off)) : ∃ r, s.drop off = '{' :: r := by
  obtain ⟨pre, rest, hs, hlen⟩ := matchPat_decomp h
  refine ⟨rest, ?_⟩
  rw [hs, ← hlen, List.drop_left]

theorem matchPat_off_lt {kw s n : List Char} {off : Nat}
    (h : matchPat kw s = some (n, off)) : off < s.length := by
  obtain ⟨pre, rest, hs, hlen⟩ := matchPat_decomp h
  rw [hs]
  simp only [List.length_append, List.length_cons]
  omega

/-- Locality of `matchPat`: a successful match only examines the span up to
and including the opening brace. -/
theorem matchPat_append {kw s n : List Char} {off : Nat}
    (h : matchPat kw s = some (n, off)) (t : List Char) :
    matchPat kw (s.take (off + 1) ++ t) = some (n, off) := by
  obtain ⟨sp1, sp2, sp3, rest, hs, h1, h2, h3, hne, hw, hoff⟩ := matchPat_eq_some_iff.mp h
  have hflat : s = (kw ++ sp1 ++ ':' :: sp2 ++ n ++ sp3) ++ '{' :: rest := by
    rw [hs]; simp [List.append_assoc]
  have hlen : (kw ++ sp1 ++ ':' :: sp2 ++ n ++ sp3).length = off := by
    simp only [List.length_append, List.length_cons]
    omega
  have htake : s.take (off + 1) = (kw ++ sp1 ++ ':' :: sp2 ++ n ++ sp3) ++ ['{'] := by
    rw [hflat, ← hlen, show (kw ++ sp1 ++ ':' :: sp2 ++ n ++ sp3).length + 1
      = (kw ++ sp1 ++ ':' :: sp2 ++ n ++ sp3).length + 1 from rfl, List.take_append]
    simp
  rw [htake]
  refine matchPat_eq_some_iff.mpr ⟨sp1, sp2, sp3, t, ?_, h1, h2, h3, hne, hw, hoff⟩
  simp [List.append_assoc]

/-- No match of the keyword pattern can start strictly inside the span of
another match (up to and including its opening brace): inside the span, the
only position that both carries a word character and follows a non-word
character is the start of the captured name, and there the pattern cannot
match again (the name run is followed by `{`, never by `:`).  This is what
makes the `finditer` scan exhaustive. -/
theorem matchPat_no_overlap {kw s n n' : List Char} {off off' q : Nat}
    (hkne : kw ≠ []) (hkw : kw.all isWordChar = true)
    (h1 : matchPat kw s = some (n, off)) (hq1 : 1 ≤ q) (hq2 : q ≤ off)
    (hb : ∀ c, s[q - 1]? = some c → isWordChar c = false)
    (h2 : matchPat kw (s.drop q) = some (n', off')) : False := by
  obtain ⟨sp1, sp2, sp3, rest, hs, hsp1, hsp2, hsp3, hne, hnw, hoff⟩ :=
    matchPat_eq_some_iff.mp h1
  have hclass : ∀ idx c, idx ≤ off → s[idx]? = some c → isWordChar c = true →
      idx < kw.length ∨
        (kw.length + sp1.length + 1 + sp2.length ≤ idx ∧
          idx < kw.length + sp1.length + 1 + sp2.length + n.length) := by
    intro idx c hidx hc hw
    rw [hs, List.getElem?_append] at hc
    split at hc
    case isTrue hlt => exact Or.inl hlt
    case isFalse hge1 =>
      rw [List.getElem?_append] at hc
      split at hc
      case isTrue hlt2 =>
        have := List.all_eq_true.mp hsp1 _ (List.getElem?_mem hc)
        rw [space_not_word this] at hw
        exact absurd hw (by simp)
      case isFalse hge2 =>
        cases hk : idx - kw.length - sp1.length with
        | zero =>
          rw [hk, List.getElem?_cons_zero, Option.some.injEq] at hc
          subst hc
          exact absurd hw (by decide)
        | succ k =>
          rw [hk, List.getElem?_cons_succ, List.getElem?_append] at hc
          split at hc
          case isTrue hlt3 =>
            have := List.all_eq_true.mp hsp2 _ (List.getElem?_mem hc)
            rw [space_not_word this] at hw
            exact absurd hw (by simp)
          case isFalse hge3 =>
            rw [List.getElem?_append] at hc
            split at hc
            case isTrue hlt4 => right; omega
            case isFalse hge4 =>
              rw [List.getElem?_append] at hc
              split at hc
              case isTrue hlt5 =>
                have := List.all_eq_true.mp hsp3 _ (List.getElem?_mem hc)
                rw [space_not_word this] at hw
                exact absurd hw (by simp)
              case isFalse hge5 =>
                cases hm : k - sp2.length - n.length - sp3.length with
                | zero =>
                  rw [hm, List.getElem?_cons_zero, Option.some.injEq] at hc
                  subst hc
                  exact absurd hw (by decide)
                | succ m => omega
  obtain ⟨sp1', sp2', sp3', rest', hs2, hsp1', hsp2', hsp3', hne', hnw', hoff'⟩ :=
    matchPat_eq_some_iff.mp h2
  obtain ⟨k0, kwtl, rfl⟩ : ∃ k0 kwtl, kw = k0 :: kwtl := by
    cases kw with
    | nil => exact absurd rfl hkne
    | cons a m => exact ⟨a, m, rfl⟩
  have hk0w : isWordChar k0 = true := by
    simp only [List.all_cons, Bool.and_eq_true] at hkw
    exact hkw.1
  have hq_char : s[q]? = some k0 := by
    have h0 : (s.drop q)[0]? = some k0 := by
      rw [hs2]
      simp
    rw [List.getElem?_drop] at h0
    simpa using h0
  rcases hclass q k0 hq2 hq_char hk0w with hqA | ⟨hqD, hqE⟩
  · have hlt : q - 1 < (k0 :: kwtl).length := by omega
    have hchar : s[q - 1]? = (k0 :: kwtl)[q - 1]? := by
      rw [hs, List.getElem?_append, if_pos hlt]
    obtain ⟨b, hbe⟩ : ∃ b, (k0 :: kwtl)[q - 1]? = some b :=
      ⟨_, List.getElem?_eq_getElem hlt⟩
    have hwrd := List.all_eq_true.mp hkw _ (List.getElem?_mem hbe)
    rw [hbe] at hchar
    rw [hb _ hchar] at hwrd
    exact Bool.false_ne_true hwrd
  · have hdropD : s.drop ((k0 :: kwtl).length + sp1.length + 1 + sp2.length)
        = n ++ (sp3 ++ '{' :: rest) := by
      have hsD : s = ((k0 :: kwtl) ++ sp1 ++ [':'] ++ sp2) ++ (n ++ (sp3 ++ '{' :: rest)) := by
        rw [hs]; simp [List.append_assoc]
      have hlen : ((k0 :: kwtl) ++ sp1 ++ [':'] ++ sp2).length
          = (k0 :: kwtl).length + sp1.length + 1 + sp2.length := by
        simp only [List.length_append, List.length_cons, List.length_nil]
      rw [hsD, ← hlen, List.drop_left]
    by_cases hqD' : q = (k0 :: kwtl).length + sp1.length + 1 + sp2.length
    · rw [hqD'] at hs2
      rw [hdropD] at hs2
      obtain ⟨-, hx⟩ := max_run_unique (p := isWordChar) hs2 hnw hkw
        (head?_of_space_brace hsp3) (head?_space_run hsp1' (by decide))
      obtain ⟨-, hy⟩ := max_run_unique (p := isSpaceChar) hx hsp3 hsp1'
        (by intro c hc; simp only [List.head?_cons, Option.some.injEq] at hc; subst hc; decide)
        (by intro c hc; simp only [List.head?_cons, Option.some.injEq] at hc; subst hc; decide)
      exact absurd hy (by simp)
    · have hidx : q - 1 - ((k0 :: kwtl).length + sp1.length + 1 + sp2.length) < n.length := by
        omega
      have hchar : s[q - 1]?
          = n[q - 1 - ((k0 :: kwtl).length + sp1.length + 1 + sp2.length)]? := by
        have he := List.getElem?_drop s ((k0 :: kwtl).length + sp1.length + 1 + sp2.length)
          (q - 1 - ((k0 :: kwtl).length + sp1.length + 1 + sp2.length))
        rw [hdropD] at he
        rw [show ((k0 :: kwtl).length + sp1.length + 1 + sp2.length)
            + (q - 1 - ((k0 :: kwtl).length + sp1.length + 1 + sp2.length)) = q - 1 by omega]
          at he
        rw [← he, List.getElem?_append, if_pos hidx]
      obtain ⟨b, hbe⟩ : ∃ b,
          n[q - 1 - ((k0 :: kwtl).length + sp1.length + 1 + sp2.length)]? = some b :=
        ⟨_, List.getElem?_eq_getElem hidx⟩
      have hwrd := List.all_eq_true.mp hnw _ (List.getElem?_mem hbe)
      rw [hbe] at hchar
      rw [hb _ hchar] at hwrd
      exact Bool.false_ne_true hwrd

/-! ### Soundness of the brace matcher -/

theorem findCloseAux_sound {s : List Char} : ∀ {d j : Nat}, 1 ≤ d →
    findCloseAux d s = some j →
    j < s.length ∧ s[j]? = some '}' ∧
      ((d : Int) + (s.take j).count '{' - (s.take j).count '}' = 1) ∧
      ∀ m, m ≤ j → 1 ≤ (d : Int) + (s.take m).count '{' - (s.take m).count '}' := by
  induction s with
  | nil => intro d j hd h; simp [findCloseAux] at h
  | cons c rest ih =>
    intro d j hd h
    rw [show findCloseAux d (c :: rest)
        = if c = '{' then (findCloseAux (d + 1) rest).map (· + 1)
          else if c = '}' then
            if d = 1 then some 0 else (findCloseAux (d - 1) rest).map (· + 1)
          else (findCloseAux d rest).map (· + 1) from rfl] at h
    by_cases h1 : c = '{'
    · subst h1
      rw [if_pos rfl] at h
      obtain ⟨j', hj', rfl⟩ := Option.map_eq_some'.mp h
      obtain ⟨hlt, hget, hdelta, hpref⟩ := ih (by omega) hj'
      refine ⟨by simpa using hlt, by simpa using hget, ?_, ?_⟩
      · simp only [List.take_succ_cons, List.count_cons, beq_iff_eq] at *
        push_cast
        omega
      · intro m hm
        cases m with
        | zero => simp; omega
        | succ m' =>
          have := hpref m' (by omega)
          simp only [List.take_succ_cons, List.count_cons, beq_iff_eq] at *
          push_cast
          omega
    · by_cases h2 : c = '}'
      · subst h2
        rw [if_neg h1, if_pos rfl] at h
        by_cases h3 : d = 1
        · subst h3
          rw [if_pos rfl] at h
          obtain rfl : j = 0 := by simpa using h.symm
          refine ⟨by simp, by simp, by simp, ?_⟩
          intro m hm
          obtain rfl : m = 0 := by omega
          simp
        · rw [if_neg h3] at h
          obtain ⟨j', hj', rfl⟩ := Option.map_eq_some'.mp h
          obtain ⟨hlt, hget, hdelta, hpref⟩ := ih (by omega) hj'
          refine ⟨by simpa using hlt, by simpa using hget, ?_, ?_⟩
          · simp only [List.take_succ_cons, List.count_cons, beq_iff_eq] at *
            push_cast [h1] at *
            omega
          · intro m hm
            cases m with
            | zero => simp; omega
            | succ m' =>
              have := hpref m' (by omega)
              simp only [List.take_succ_cons, List.count_cons, beq_iff_eq] at *
              push_cast [h1] at *
              omega
      · rw [if_neg h1, if_neg h2] at h
        obtain ⟨j', hj', rfl⟩ := Option.map_eq_some'.mp h
        obtain ⟨hlt, hget, hdelta, hpref⟩ := ih hd hj'
        refine ⟨by simpa using hlt, by simpa using hget, ?_, ?_⟩
        · simp only [List.take_succ_cons, List.count_cons, beq_iff_eq] at *
          push_cast [h1, h2] at *
          omega
        · intro m hm
          cases m with
          | zero => simp; omega
          | succ m' =>
            have := hpref m' (by omega)
            simp only [List.take_succ_cons, List.count_cons, beq_iff_eq] at *
            push_cast [h1, h2] at *
            omega

/-- Locality of the brace matcher: a successful scan only examines the text
up to the returned position. -/
theorem findCloseAux_append {t : List Char} : ∀ {s : List Char} {d j : Nat},
    findCloseAux d s = some j → findCloseAux d (s ++ t) = some j := by
  intro s
  induction s with
  | nil => intro d j h; simp [findCloseAux] at h
  | cons c rest ih =>
    intro d j h
    rw [show findCloseAux d (c :: rest)
        = if c = '{' then (findCloseAux (d + 1) rest).map (· + 1)
          else if c = '}' then
            if d = 1 then some 0 else (findCloseAux (d - 1) rest).map (· + 1)
          else (findCloseAux d rest).map (· + 1) from rfl] at h
    rw [List.cons_append,
      show findCloseAux d (c :: (rest ++ t))
        = if c = '{' then (findCloseAux (d + 1) (rest ++ t)).map (· + 1)
          else if c = '}' then
            if d = 1 then some 0 else (findCloseAux (d - 1) (rest ++ t)).map (· + 1)
          else (findCloseAux d (rest ++ t)).map (· + 1) from rfl]
    by_cases h1 : c = '{'
    · rw [if_pos h1] at h ⊢
      obtain ⟨j', hj', rfl⟩ := Option.map_eq_some'.mp h
      rw [ih hj']
      rfl
    · by_cases h2 : c = '}'
      · rw [if_neg h1, if_pos h2] at h ⊢
        by_cases h3 : d = 1
        · rwa [if_pos h3] at h ⊢
        · rw [if_neg h3] at h ⊢
          obtain ⟨j', hj', rfl⟩ := Option.map_eq_some'.mp h
          rw [ih hj']
          rfl
      · rw [if_neg h1, if_neg h2] at h ⊢
        obtain ⟨j', hj', rfl⟩ := Option.map_eq_some'.mp h
        rw [ih hj']
        rfl

/-! ### Soundness, order and completeness of the finditer scan -/

theorem scanGo_nil {kw : List Char} {pos skip : Nat} {pw : Bool} :
    scanGo kw pos skip pw [] = [] := by
  cases skip <;> rfl

theorem scanGo_zero_cons {kw : List Char} {pos : Nat} {pw : Bool} {c : Char}
    {rest : List Char} :
    scanGo kw pos 0 pw (c :: rest) =
      if pw then scanGo kw (pos + 1) 0 (isWordChar c) rest
      else
        match matchPat kw (c :: rest) with
        | some (n, off) => (pos, n, off) :: scanGo kw (pos + 1) off (isWordChar c) rest
        | none => scanGo kw (pos + 1) 0 (isWordChar c) rest := rfl

theorem scanGo_sound_lift {kw : List Char} {c : Char} {rest n : List Char}
    {off q' : Nat}
    (hm : matchPat kw (rest.drop q') = some (n, off))
    (hbd : (q' = 0 ∧ isWordChar c = false) ∨
      (1 ≤ q' ∧ ∃ b, rest[q' - 1]? = some b ∧ isWordChar b = false)) :
    matchPat kw ((c :: rest).drop (q' + 1)) = some (n, off) ∧
      (1 ≤ q' + 1 ∧ ∃ b, (c :: rest)[q' + 1 - 1]? = some b ∧ isWordChar b = false) := by
  refine ⟨by simpa using hm, by omega, ?_⟩
  rcases hbd with ⟨rfl, hw⟩ | ⟨hq1, b, hb, hw⟩
  · exact ⟨c, by simp, hw⟩
  · refine ⟨b, ?_, hw⟩
    rw [show q' + 1 - 1 = (q' - 1) + 1 by omega, List.getElem?_cons_succ]
    exact hb

/-- Every triple reported by the scan is a genuine pattern match at its
position, starts at or after the skip threshold, and sits at a `\b`
boundary. -/
theorem scanGo_sound {kw : List Char} : ∀ {s : List Char} {pos skip : Nat} {pw : Bool}
    {p : Nat} {n : List Char} {off : Nat},
    (p, n, off) ∈ scanGo kw pos skip pw s →
    ∃ q, p = pos + q ∧ skip ≤ q ∧ matchPat kw (s.drop q) = some (n, off) ∧
      ((q = 0 ∧ pw = false) ∨
        (1 ≤ q ∧ ∃ b, s[q - 1]? = some b ∧ isWordChar b = false)) := by
  intro s
  induction s with
  | nil =>
    intro pos skip pw p n off h
    rw [scanGo_nil] at h
    exact absurd h (by simp)
  | cons c rest ih =>
    intro pos skip pw p n off h
    cases skip with
    | succ k =>
      obtain ⟨q', rfl, hsk, hm, hbd⟩ := ih h
      obtain ⟨hm2, hbd2⟩ := scanGo_sound_lift hm hbd
      exact ⟨q' + 1, by omega, by omega, hm2, Or.inr hbd2⟩
    | zero =>
      rw [scanGo_zero_cons] at h
      cases pw with
      | true =>
        rw [if_pos rfl] at h
        obtain ⟨q', rfl, hsk, hm, hbd⟩ := ih h
        obtain ⟨hm2, hbd2⟩ := scanGo_sound_lift hm hbd
        exact ⟨q' + 1, by omega, by omega, hm2, Or.inr hbd2⟩
      | false =>
        rw [if_neg (by simp)] at h
        cases hmc : matchPat kw (c :: rest) with
        | some r =>
          obtain ⟨n0, off0⟩ := r
          rw [hmc] at h
          rcases List.mem_cons.mp h with heq | htl
          · obtain ⟨rfl, rfl, rfl⟩ := Prod.mk.injEq .. ▸ (by
              simpa using heq : p = pos ∧ n = n0 ∧ off = off0)
            exact ⟨0, by omega, by omega, by simpa using hmc, Or.inl ⟨rfl, rfl⟩⟩
          · obtain ⟨q', rfl, hsk, hm, hbd⟩ := ih htl
            obtain ⟨hm2, hbd2⟩ := scanGo_sound_lift hm hbd
            exact ⟨q' + 1, by omega, by omega, hm2, Or.inr hbd2⟩
        | none =>
          rw [hmc] at h
          obtain ⟨q', rfl, hsk, hm, hbd⟩ := ih h
          obtain ⟨hm2, hbd2⟩ := scanGo_sound_lift hm hbd
          exact ⟨q' + 1, by omega, by omega, hm2, Or.inr hbd2⟩

/-- The scan reports positions in strictly increasing (document) order. -/
theorem scanGo_sorted {kw : List Char} : ∀ {s : List Char} {pos skip : Nat} {pw : Bool},
    (scanGo kw pos skip pw s).Pairwise (fun a b => a.1 < b.1) := by
  intro s
  induction s with
  | nil =>
    intro pos skip pw
    rw [scanGo_nil]
    exact List.Pairwise.nil
  | cons c rest ih =>
    intro pos skip pw
    cases skip with
    | succ k => exact ih
    | zero =>
      rw [scanGo_zero_cons]
      cases pw with
      | true => rw [if_pos rfl]; exact ih
      | false =>
        rw [if_neg (by simp)]
        cases hmc : matchPat kw (c :: rest) with
        | some r =>
          obtain ⟨n0, off0⟩ := r
          refine List.Pairwise.cons ?_ ih
          intro b hb
          obtain ⟨q, hq, -, -, -⟩ := scanGo_sound hb
          simp only [hq]
          omega
        | none => exact ih

/-- Completeness of the scan: every boundary-correct pattern match at or
beyond the skip threshold is reported.  (Uses `matchPat_no_overlap`: a match
can never hide inside the span of a previously reported match.) -/
theorem scanGo_complete {kw : List Char} (hkne : kw ≠ [])
    (hkw : kw.all isWordChar = true) :
    ∀ {s : List Char} {pos skip : Nat} {pw : Bool} {q : Nat} {n : List Char} {off : Nat},
    skip ≤ q →
    matchPat kw (s.drop q) = some (n, off) →
    ((q = 0 ∧ pw = false) ∨
      (1 ≤ q ∧ ∀ b, s[q - 1]? = some b → isWordChar b = false)) →
    (pos + q, n, off) ∈ scanGo kw pos skip pw s := by
  intro s
  induction s with
  | nil =>
    intro pos skip pw q n off hsk hm hbd
    rw [List.drop_nil] at hm
    exact absurd hm (by rw [matchPat_nil hkne]; simp)
  | cons c rest ih =>
    intro pos skip pw q n off hsk hm hbd
    have hlift : 1 ≤ q →
        (q - 1 = 0 ∧ isWordChar c = false) ∨
          (1 ≤ q - 1 ∧ ∀ b, rest[q - 1 - 1]? = some b → isWordChar b = false) := by
      intro hq1
      rcases hbd with ⟨rfl, -⟩ | ⟨-, hball⟩
      · omega
      · cases hq : q - 1 with
        | zero =>
          left
          refine ⟨rfl, hball c ?_⟩
          rw [hq]
          simp
        | succ m =>
          right
          refine ⟨by omega, ?_⟩
          intro b hb
          refine hball b ?_
          rw [hq, List.getElem?_cons_succ]
          simpa using hb
    have hmrest : 1 ≤ q → matchPat kw (rest.drop (q - 1)) = some (n, off) := by
      intro hq1
      rw [show q = (q - 1) + 1 by omega, List.drop_succ_cons] at hm
      exact hm
    cases skip with
    | succ k =>
      have hq1 : 1 ≤ q := by omega
      have := @ih (pos + 1) k (isWordChar c) (q - 1) n off
        (by omega) (hmrest hq1) (Or.comm.mp (by simpa using (hlift hq1).symm))
      rw [show pos + 1 + (q - 1) = pos + q by omega] at this
      exact this
    | zero =>
      rw [scanGo_zero_cons]
      cases pw with
      | true =>
        rw [if_pos rfl]
        have hq1 : 1 ≤ q := by
          rcases hbd with ⟨-, hc⟩ | ⟨h1, -⟩
          · exact absurd hc (by simp)
          · exact h1
        have := @ih (pos + 1) 0 (isWordChar c) (q - 1) n off
          (by omega) (hmrest hq1) (hlift hq1)
        rw [show pos + 1 + (q - 1) = pos + q by omega] at this
        exact this
      | false =>
        rw [if_neg (by simp)]
        cases hmc : matchPat kw (c :: rest) with
        | some r =>
          obtain ⟨n0, off0⟩ := r
          cases Nat.eq_zero_or_pos q with
          | inl hq0 =>
            subst hq0
            rw [List.drop_zero] at hm
            rw [hm] at hmc
            obtain ⟨rfl, rfl⟩ : n0 = n ∧ off0 = off := by
              simpa [eq_comm] using hmc
            exact List.mem_cons_self _ _
          | inr hq1 =>
            have hnov : off0 < q := by
              by_contra hcon
              push_neg at hcon
              rcases hbd with ⟨rfl, -⟩ | ⟨-, hball⟩
              · omega
              · exact matchPat_no_overlap hkne hkw hmc hq1 hcon hball hm
            refine List.mem_cons_of_mem _ ?_
            have := @ih (pos + 1) off0 (isWordChar c) (q - 1) n off
              (by omega) (hmrest hq1) (hlift hq1)
            rw [show pos + 1 + (q - 1) = pos + q by omega] at this
            exact this
        | none =>
          cases Nat.eq_zero_or_pos q with
          | inl hq0 =>
            subst hq0
            rw [List.drop_zero] at hm
            rw [hm] at hmc
            exact absurd hmc (by simp)
          | inr hq1 =>
            have := @ih (pos + 1) 0 (isWordChar c) (q - 1) n off
              (by omega) (hmrest hq1) (hlift hq1)
            rw [show pos + 1 + (q - 1) = pos + q by omega] at this
            exact this

/-! ### Membership in the extractor's output -/

theorem mem_extract_pos_iff {text kw : List Char} {p : Nat} {b : Block} :
    (p, b) ∈ extract_named_blocks_pos text kw ↔
    ∃ n off close, (p, n, off) ∈ scanGo kw 0 0 false text ∧
      find_matching_brace text (p + off) = some close ∧
      b = ⟨n, (text.drop (p + off + 1)).take (close - (p + off + 1))⟩ := by
  unfold extract_named_blocks_pos
  rw [List.mem_filterMap]
  constructor
  · rintro ⟨⟨q, n, off⟩, hmem, heq⟩
    dsimp only at heq
    cases hfm : find_matching_brace text (q + off) with
    | none => rw [hfm] at heq; exact absurd heq (by simp)
    | some close =>
      rw [hfm] at heq
      simp only [Option.some.injEq, Prod.mk.injEq] at heq
      obtain ⟨rfl, hb⟩ := heq
      exact ⟨n, off, close, hmem, hfm, hb.symm⟩
  · rintro ⟨n, off, close, hmem, hfm, hb⟩
    refine ⟨(p, n, off), hmem, ?_⟩
    dsimp only
    rw [hfm, hb]

theorem mem_extract_iff {text kw : List Char} {b : Block} :
    b ∈ extract_named_blocks text kw ↔ ∃ p, (p, b) ∈ extract_named_blocks_pos text kw := by
  unfold extract_named_blocks
  rw [List.mem_map]
  constructor
  · rintro ⟨⟨p, b'⟩, hm, rfl⟩
    exact ⟨p, hm⟩
  · rintro ⟨p, hm⟩
    exact ⟨(p, b), hm, rfl⟩

theorem block_body_length_lt {text kw : List Char} {b : Block}
    (h : b ∈ extract_named_blocks text kw) : b.body.length < text.length := by
  obtain ⟨p, hp⟩ := mem_extract_iff.mp h
  obtain ⟨n, off, close, hscan, hfm, hb⟩ := mem_extract_pos_iff.mp hp
  cases text with
  | nil => rw [scanGo_nil] at hscan; exact absurd hscan (by simp)
  | cons c r =>
    rw [hb]
    simp only [List.length_take, List.length_drop, List.length_cons]
    omega

/-- Completeness of the extractor: every boundary-correct pattern match with
a balanced close yields an entry of the result list. -/
theorem extract_pos_complete {text kw : List Char} (hkne : kw ≠ [])
    (hkw : kw.all isWordChar = true) {p : Nat} {n : List Char} {off close : Nat}
    (hm : matchPat kw (text.drop p) = some (n, off))
    (hbd : p = 0 ∨ (1 ≤ p ∧ ∀ b, text[p - 1]? = some b → isWordChar b = false))
    (hfm : find_matching_brace text (p + off) = some close) :
    (p, ⟨n, (text.drop (p + off + 1)).take (close - (p + off + 1))⟩)
      ∈ extract_named_blocks_pos text kw := by
  have hbd' : (p = 0 ∧ false = false) ∨
      (1 ≤ p ∧ ∀ b, text[p - 1]? = some b → isWordChar b = false) := by
    rcases hbd with h | h
    · exact Or.inl ⟨h, rfl⟩
    · exact Or.inr h
  have hscan := @scanGo_complete kw hkne hkw text 0 0 false p n off (by omega) hm hbd'
  rw [Nat.zero_add] at hscan
  exact mem_extract_pos_iff.mpr ⟨n, off, close, hscan, hfm, rfl⟩


/-- A block extracted from the body of an extracted block also occurs,
further right, among the blocks extracted from the whole text. -/
theorem extract_nested {text kw : List Char} (hkne : kw ≠ [])
    (hkw : kw.all isWordChar = true) {p1 : Nat} {b1 : Block}
    (h1 : (p1, b1) ∈ extract_named_blocks_pos text kw)
    {b2 : Block} (h2 : b2 ∈ extract_named_blocks b1.body kw) :
    ∃ p2, p1 < p2 ∧ (p2, b2) ∈ extract_named_blocks_pos text kw := by
  obtain ⟨n1, off1, close1, hscan1, hfm1, hb1⟩ := mem_extract_pos_iff.mp h1
  obtain ⟨j1, hj1, hclose1⟩ := Option.map_eq_some'.mp hfm1
  have hsound1 := findCloseAux_sound (le_refl 1) hj1
  have hbody : b1.body = (text.drop (p1 + off1 + 1)).take j1 := by
    rw [hb1]
    dsimp only
    congr 1
    omega
  have hblen : b1.body.length = j1 := by
    have h1l := hsound1.1
    rw [List.length_drop] at h1l
    rw [hbody, List.length_take, List.length_drop]
    omega
  obtain ⟨tl, htl⟩ : ∃ tl, text.drop (p1 + off1 + 1) = b1.body ++ tl := by
    refine ⟨(text.drop (p1 + off1 + 1)).drop j1, ?_⟩
    rw [hbody, List.take_append_drop]
  obtain ⟨q2, hq2⟩ := mem_extract_iff.mp h2
  obtain ⟨n2, off2, close2, hscan2, hfm2, hb2⟩ := mem_extract_pos_iff.mp hq2
  obtain ⟨q, hqeq, -, hm2, hbd2⟩ := scanGo_sound hscan2
  obtain rfl : q2 = q := by omega
  obtain ⟨j2, hj2, hclose2⟩ := Option.map_eq_some'.mp hfm2
  have hsound2 := findCloseAux_sound (le_refl 1) hj2
  have hoff2lt := matchPat_off_lt hm2
  rw [List.length_drop] at hoff2lt
  have hs21 := hsound2.1
  rw [List.length_drop] at hs21
  have hdropabs : text.drop (p1 + off1 + 1 + q2) = b1.body.drop q2 ++ tl := by
    rw [← List.drop_drop, htl, List.drop_append_eq_append_drop,
      show q2 - b1.body.length = 0 by omega, List.drop_zero]
  have hdrop2 : text.drop (p1 + off1 + 1 + q2 + off2 + 1)
      = b1.body.drop (q2 + off2 + 1) ++ tl := by
    rw [show p1 + off1 + 1 + q2 + off2 + 1 = p1 + off1 + 1 + (q2 + off2 + 1) by omega,
      ← List.drop_drop, htl, List.drop_append_eq_append_drop,
      show q2 + off2 + 1 - b1.body.length = 0 by omega, List.drop_zero]
  have hmabs : matchPat kw (text.drop (p1 + off1 + 1 + q2)) = some (n2, off2) := by
    rw [hdropabs,
      show b1.body.drop q2
          = (b1.body.drop q2).take (off2 + 1) ++ (b1.body.drop q2).drop (off2 + 1) from
        (List.take_append_drop _ _).symm,
      List.append_assoc]
    exact matchPat_append hm2 _
  have hbrace1 : text[p1 + off1]? = some '{' := by
    obtain ⟨qq, hq1eq, -, hm1, -⟩ := scanGo_sound hscan1
    obtain rfl : p1 = qq := by omega
    obtain ⟨r, hr⟩ := matchPat_drop_off hm1
    rw [List.drop_drop] at hr
    have hg := List.getElem?_drop text (p1 + off1) 0
    rw [hr] at hg
    simpa using hg.symm
  have hbdabs : ∀ b, text[p1 + off1 + 1 + q2 - 1]? = some b → isWordChar b = false := by
    intro b hbx
    rcases hbd2 with ⟨rfl, -⟩ | ⟨hq21, bb, hbb, hbw⟩
    · rw [show p1 + off1 + 1 + 0 - 1 = p1 + off1 by omega, hbrace1, Option.some.injEq] at hbx
      subst hbx
      decide
    · have he := List.getElem?_drop text (p1 + off1 + 1) (q2 - 1)
      rw [htl, List.getElem?_append, if_pos (show q2 - 1 < b1.body.length by omega), hbb]
        at he
      rw [show p1 + off1 + 1 + q2 - 1 = p1 + off1 + 1 + (q2 - 1) by omega, ← he,
        Option.some.injEq] at hbx
      subst hbx
      exact hbw
  have hfmabs : find_matching_brace text (p1 + off1 + 1 + q2 + off2)
      = some (p1 + off1 + 1 + q2 + off2 + 1 + j2) := by
    unfold find_matching_brace
    rw [hdrop2, findCloseAux_append hj2]
    simp only [Option.map_some', Option.some.injEq]
    omega
  have hslice : (text.drop (p1 + off1 + 1 + q2 + off2 + 1)).take j2
      = (b1.body.drop (q2 + off2 + 1)).take j2 := by
    rw [hdrop2, List.take_append_eq_append_take,
      show j2 - (b1.body.drop (q2 + off2 + 1)).length = 0 by rw [List.length_drop]; omega,
      List.take_zero, List.append_nil]
  refine ⟨p1 + off1 + 1 + q2, by omega, ?_⟩
  have hmem := extract_pos_complete hkne hkw hmabs (Or.inr ⟨by omega, hbdabs⟩) hfmabs
  rw [show p1 + off1 + 1 + q2 + off2 + 1 + j2 - (p1 + off1 + 1 + q2 + off2 + 1) = j2
      by omega, hslice] at hmem
  have hb2x : b2 = Block.mk n2 ((b1.body.drop (q2 + off2 + 1)).take j2) := by
    rw [hb2, show close2 - (q2 + off2 + 1) = j2 by omega]
  rw [← hb2x] at hmem
  exact hmem

/-! ### Claim theorems -/

/-- C9: for every input text and keyword, every body returned by the block
extractor is brace-balanced: it contains equally many opening and closing
braces, and in every prefix of the body the closing braces never outnumber
the opening ones. -/
theorem claim_C9 {text kw : List Char} {b : Block}
    (h : b ∈ extract_named_blocks text kw) :
    b.body.count '{' = b.body.count '}' ∧
      ∀ m, (b.body.take m).count '}' ≤ (b.body.take m).count '{' := by
  obtain ⟨p, hp⟩ := mem_extract_iff.mp h
  obtain ⟨n, off, close, hscan, hfm, hb⟩ := mem_extract_pos_iff.mp hp
  obtain ⟨j, hj, hclose⟩ := Option.map_eq_some'.mp hfm
  obtain ⟨hlt, hget, hdelta, hpref⟩ := findCloseAux_sound (le_refl 1) hj
  have hbody : b.body = (text.drop (p + off + 1)).take j := by
    rw [hb]
    dsimp only
    congr 1
    omega
  constructor
  · rw [hbody]
    omega
  · intro m
    rw [hbody, List.take_take]
    rcases le_total m j with hmj | hjm
    · rw [inf_eq_left.mpr hmj]
      have := hpref m hmj
      omega
    · rw [inf_eq_right.mpr hjm]
      omega

theorem claim_C9_witness :
    ((⟨"a".toList, " x { y } ".toList⟩ : Block)
        ∈ extract_named_blocks "view: a { x { y } }".toList "view".toList) ∧
      (" x { y } ".toList.count '{' = " x { y } ".toList.count '}' ∧
        ∀ m, (" x { y } ".toList.take m).count '}' ≤ (" x { y } ".toList.take m).count '{') :=
  ⟨by decide, @claim_C9 "view: a { x { y } }".toList "view".toList
    ⟨"a".toList, " x { y } ".toList⟩ (by decide)⟩

/-- C10: the block extractor scans the whole text flatly.  A keyword
occurrence with a balanced close nested inside a returned block's body (i.e.
a block that re-extraction finds in that body) yields its own entry in the
result list — strictly to the right of the enclosing block's match — in
addition to appearing inside the enclosing block's body.  A single call is
therefore not restricted to top-level blocks.  (The keyword hypotheses hold
for every keyword the analyzer uses: `view`, `explore`, `join`, `dimension`,
`measure`.) -/
theorem claim_C10 {text kw : List Char} (hkne : kw ≠ [])
    (hkw : kw.all isWordChar = true) {p1 : Nat} {b1 : Block}
    (h1 : (p1, b1) ∈ extract_named_blocks_pos text kw)
    {b2 : Block} (h2 : b2 ∈ extract_named_blocks b1.body kw) :
    b2 ∈ extract_named_blocks text kw ∧
      ∃ p2, p1 < p2 ∧ (p2, b2) ∈ extract_named_blocks_pos text kw := by
  obtain ⟨p2, hlt, hmem⟩ := extract_nested hkne hkw h1 h2
  exact ⟨mem_extract_iff.mpr ⟨p2, hmem⟩, p2, hlt, hmem⟩

theorem claim_C10_witness :
    ("view".toList ≠ [] ∧ "view".toList.all isWordChar = true ∧
      (0, (⟨"a".toList, " view: b { } ".toList⟩ : Block))
          ∈ extract_named_blocks_pos "view: a { view: b { } }".toList "view".toList ∧
      (⟨"b".toList, " ".toList⟩ : Block)
          ∈ extract_named_blocks " view: b { } ".toList "view".toList) ∧
    ((⟨"b".toList, " ".toList⟩ : Block)
        ∈ extract_named_blocks "view: a { view: b { } }".toList "view".toList ∧
      ∃ p2, 0 < p2 ∧ (p2, (⟨"b".toList, " ".toList⟩ : Block))
          ∈ extract_named_blocks_pos "view: a { view: b { } }".toList "view".toList) :=
  ⟨⟨by decide, by decide, by decide, by decide⟩,
    @claim_C10 "view: a { view: b { } }".toList "view".toList (by decide) (by decide)
      0 ⟨"a".toList, " view: b { } ".toList⟩ (by decide)
      ⟨"b".toList, " ".toList⟩ (by decide)⟩

theorem extract_subset_extractRec {text kw : List Char} {b : Block} (htext : text ≠ [])
    (h : b ∈ extract_named_blocks text kw) : b ∈ extractRec kw text := by
  unfold extractRec
  cases text with
  | nil => exact absurd rfl htext
  | cons c rest =>
    rw [List.length_cons,
      show extractRecFuel kw (rest.length + 1) (c :: rest)
        = extract_named_blocks (c :: rest) kw ++
            (extract_named_blocks (c :: rest) kw).flatMap
              (fun b => extractRecFuel kw rest.length b.body) from rfl]
    exact List.mem_append_left _ h

/-- C4: for balanced text and any (word-character, nonempty) keyword:
(1) every keyword block at every nesting depth — characterized directly as a
boundary-correct match of the keyword pattern whose opening brace has a
matching close — is recovered by running the extractor and recursively
re-running it on each returned body; (2) the result list of one invocation
is the position-annotated scan's output, whose positions are (3) strictly
increasing, i.e. blocks come in document order. -/
theorem claim_C4 {text kw : List Char} (hkne : kw ≠ [])
    (hkw : kw.all isWordChar = true) (hbal : bracesBalanced text = true) :
    (∀ p n off close,
      matchPat kw (text.drop p) = some (n, off) →
      (p = 0 ∨ (1 ≤ p ∧ ∀ b, text[p - 1]? = some b → isWordChar b = false)) →
      find_matching_brace text (p + off) = some close →
      Block.mk n ((text.drop (p + off + 1)).take (close - (p + off + 1)))
        ∈ extractRec kw text) ∧
    extract_named_blocks text kw = (extract_named_blocks_pos text kw).map Prod.snd ∧
    (extract_named_blocks_pos text kw).Pairwise (fun a b => a.1 < b.1) := by
  refine ⟨?_, rfl, ?_⟩
  · intro p n off close hm hbd hfm
    have hmem := extract_pos_complete hkne hkw hm hbd hfm
    have htext : text ≠ [] := by
      intro hcon
      subst hcon
      rw [List.drop_nil, matchPat_nil hkne] at hm
      exact absurd hm (by simp)
    exact extract_subset_extractRec htext (mem_extract_iff.mpr ⟨p, hmem⟩)
  · unfold extract_named_blocks_pos
    rw [List.pairwise_filterMap]
    have hsorted := @scanGo_sorted kw text 0 0 false
    refine List.Pairwise.imp_of_mem ?_ hsorted
    intro a a' ha ha' hlt b hb b' hb'
    have hba : b.1 = a.1 := by
      revert hb
      cases find_matching_brace text (a.1 + a.2.2) with
      | none => intro hb; exact absurd hb (by simp)
      | some cl =>
        intro hb
        simp only [Option.mem_def, Option.some.injEq] at hb
        rw [← hb]
    have hba' : b'.1 = a'.1 := by
      revert hb'
      cases find_matching_brace text (a'.1 + a'.2.2) with
      | none => intro hb'; exact absurd hb' (by simp)
      | some cl =>
        intro hb'
        simp only [Option.mem_def, Option.some.injEq] at hb'
        rw [← hb']
    rw [hba, hba']
    exact hlt

theorem claim_C4_witness :
    ("view".toList ≠ [] ∧ "view".toList.all isWordChar = true ∧
      bracesBalanced "view: a { view: b { } }".toList = true) ∧
    ((∀ p n off close,
        matchPat "view".toList ("view: a { view: b { } }".toList.drop p) = some (n, off) →
        (p = 0 ∨ (1 ≤ p ∧ ∀ b, "view: a { view: b { } }".toList[p - 1]? = some b →
          isWordChar b = false)) →
        find_matching_brace "view: a { view: b { } }".toList (p + off) = some close →
        Block.mk n (("view: a { view: b { } }".toList.drop (p + off + 1)).take
            (close - (p + off + 1)))
          ∈ extractRec "view".toList "view: a { view: b { } }".toList) ∧
      extract_named_blocks "view: a { view: b { } }".toList "view".toList
        = (extract_named_blocks_pos "view: a { view: b { } }".toList "view".toList).map
            Prod.snd ∧
      (extract_named_blocks_pos "view: a { view: b { } }".toList "view".toList).Pairwise
        (fun a b => a.1 < b.1)) :=
  ⟨⟨by decide, by decide, by decide⟩,
    @claim_C4 "view: a { view: b { } }".toList "view".toList (by decide) (by decide)
      (by decide)⟩

theorem foldl_append_singleton {α β : Type} (g : α → β) :
    ∀ (l : List α) (init : List β),
      l.foldl (fun acc x => acc ++ [g x]) init = init ++ l.map g := by
  intro l
  induction l with
  | nil => intro init; simp
  | cons a t ih =>
    intro init
    rw [List.foldl_cons, ih, List.map_cons]
    simp

theorem countP_flatMap {α β : Type} (g : α → List β) (p : β → Bool) :
    ∀ l : List α, (l.flatMap g).countP p = (l.map (fun x => (g x).countP p)).sum := by
  intro l
  induction l with
  | nil => simp
  | cons a t ih => simp [List.countP_append, ih]

/-- C1: `parse_explore_usage` emits, for each extracted explore, exactly one
`primary` row (for its resolved primary view) followed by exactly one `join`
row per join block extracted from its body, and nothing else; consequently
the number of `primary` rows is the number of explores and the number of
`join` rows is the total number of extracted joins.  (`analyze_repo` in
`src/app.py` appends rows the same way; see `app_model_rows`.) -/
theorem claim_C1 (mc : List Char) :
    parse_explore_usage mc
      = (extract_named_blocks (strip_lookml_comments mc) "explore".toList).flatMap
          (fun exp => primaryUsageRow exp ::
            (extract_named_blocks exp.body "join".toList).map (joinUsageRow exp)) ∧
    (parse_explore_usage mc).countP (fun r => r.role = "primary".toList)
      = (extract_named_blocks (strip_lookml_comments mc) "explore".toList).length ∧
    (parse_explore_usage mc).countP (fun r => r.role = "join".toList)
      = ((extract_named_blocks (strip_lookml_comments mc) "explore".toList).map
          (fun exp => (extract_named_blocks exp.body "join".toList).length)).sum := by
  have hkey : ∀ (es : List Block) (init : List UsageRow),
      es.foldl (fun rows exp =>
        (extract_named_blocks exp.body "join".toList).foldl
          (fun rs j => rs ++ [joinUsageRow exp j]) (rows ++ [primaryUsageRow exp])) init
      = init ++ es.flatMap (fun exp => primaryUsageRow exp ::
          (extract_named_blocks exp.body "join".toList).map (joinUsageRow exp)) := by
    intro es
    induction es with
    | nil => intro init; simp
    | cons e t ih =>
      intro init
      rw [List.foldl_cons, foldl_append_singleton, ih, List.flatMap_cons]
      simp [List.append_assoc]
  have hmain : parse_explore_usage mc
      = (extract_named_blocks (strip_lookml_comments mc) "explore".toList).flatMap
          (fun exp => primaryUsageRow exp ::
            (extract_named_blocks exp.body "join".toList).map (joinUsageRow exp)) := by
    unfold parse_explore_usage
    rw [hkey]
    simp
  have hprim : ∀ exp : Block,
      (primaryUsageRow exp ::
        (extract_named_blocks exp.body "join".toList).map (joinUsageRow exp)).countP
          (fun r => r.role = "primary".toList) = 1 := by
    intro exp
    rw [List.countP_cons]
    have h1 : (decide ((primaryUsageRow exp).role = "primary".toList)) = true := by
      simp [primaryUsageRow]
    have h2 : ((extract_named_blocks exp.body "join".toList).map (joinUsageRow exp)).countP
        (fun r => r.role = "primary".toList) = 0 := by
      refine List.countP_eq_zero.mpr ?_
      intro r hr
      obtain ⟨j, hj, rfl⟩ := List.mem_map.mp hr
      simp only [joinUsageRow, decide_eq_true_eq]
      decide
    rw [h1, h2]
    simp
  have hjoin : ∀ exp : Block,
      (primaryUsageRow exp ::
        (extract_named_blocks exp.body "join".toList).map (joinUsageRow exp)).countP
          (fun r => r.role = "join".toList)
        = (extract_named_blocks exp.body "join".toList).length := by
    intro exp
    rw [List.countP_cons]
    have h1 : (decide ((primaryUsageRow exp).role = "join".toList)) = false := by
      simp only [primaryUsageRow, decide_eq_false_iff_not]
      decide
    have h2 : ((extract_named_blocks exp.body "join".toList).map (joinUsageRow exp)).countP
        (fun r => r.role = "join".toList)
        = ((extract_named_blocks exp.body "join".toList).map (joinUsageRow exp)).length := by
      refine List.countP_eq_length.mpr ?_
      intro r hr
      obtain ⟨j, hj, rfl⟩ := List.mem_map.mp hr
      simp only [joinUsageRow, decide_eq_true_eq]
    rw [h1, h2, List.length_map]
    simp
  refine ⟨hmain, ?_, ?_⟩
  · rw [hmain, countP_flatMap, List.map_congr_left (fun exp _ => hprim exp),
      List.map_const', List.sum_replicate, smul_eq_mul, mul_one]
  · rw [hmain, countP_flatMap]
    exact congrArg List.sum (List.map_congr_left (fun exp _ => hjoin exp))

/-- C2: the coverage calculator returns an absent result for a null path or
an unreadable file; otherwise, with `total` the number of extracted
`dimension` and `measure` blocks, it returns exactly `1` when `total = 0`
and the described fraction otherwise — so 4 fields with 1 described give
exactly `1/4`. -/
theorem claim_C2 (readFile : List Char → Option (List Char)) :
    get_view_description_coverage readFile none = none ∧
    (∀ path, readFile path = none →
      get_view_description_coverage readFile (some path) = none) ∧
    (∀ path content, readFile path = some content →
      get_view_description_coverage readFile (some path)
        = some (coverage_of_content content)) ∧
    (∀ content, (view_field_blocks content).length = 0 →
      coverage_of_content content = 1) ∧
    (∀ content, 0 < (view_field_blocks content).length →
      coverage_of_content content
        = ((view_field_blocks content).countP
            (fun f => containsSub "description:".toList f.body) : ℚ)
          / ((view_field_blocks content).length : ℚ)) ∧
    (∀ content, (view_field_blocks content).length = 4 →
      (view_field_blocks content).countP
          (fun f => containsSub "description:".toList f.body) = 1 →
      coverage_of_content content = 1 / 4) := by
  refine ⟨rfl, ?_, ?_, ?_, ?_, ?_⟩
  · intro path hp
    simp only [get_view_description_coverage]
    rw [hp]
  · intro path content hp
    simp only [get_view_description_coverage]
    rw [hp]
  · intro content h0
    unfold coverage_of_content
    rw [if_pos h0]
  · intro content hpos
    unfold coverage_of_content
    rw [if_neg (by omega)]
  · intro content h4 h1
    unfold coverage_of_content
    rw [if_neg (by omega), h4, h1]
    norm_num

theorem claim_C2_witness :
    ((fun _ => some "dimension: a { description: x } dimension: b { } dimension: c { } measure: m { }".toList :
        List Char → Option (List Char)) "v.view.lkml".toList
      = some "dimension: a { description: x } dimension: b { } dimension: c { } measure: m { }".toList ∧
      (view_field_blocks "dimension: a { description: x } dimension: b { } dimension: c { } measure: m { }".toList).length = 4 ∧
      (view_field_blocks "dimension: a { description: x } dimension: b { } dimension: c { } measure: m { }".toList).countP
          (fun f => containsSub "description:".toList f.body) = 1) ∧
    (get_view_description_coverage
        (fun _ => some "dimension: a { description: x } dimension: b { } dimension: c { } measure: m { }".toList)
        none = none ∧
      coverage_of_content "dimension: a { description: x } dimension: b { } dimension: c { } measure: m { }".toList
        = 1 / 4) := by
  refine ⟨⟨rfl, by decide, by decide⟩, ?_, ?_⟩
  · exact (claim_C2 (fun _ => some "dimension: a { description: x } dimension: b { } dimension: c { } measure: m { }".toList)).1
  · exact (claim_C2 (fun _ => some "dimension: a { description: x } dimension: b { } dimension: c { } measure: m { }".toList)).2.2.2.2.2 _ (by decide) (by decide)

theorem extract_name_ne_nil {text kw : List Char} {b : Block}
    (h : b ∈ extract_named_blocks text kw) : b.name ≠ [] := by
  obtain ⟨p, hp⟩ := mem_extract_iff.mp h
  obtain ⟨n, off, close, hscan, hfm, hb⟩ := mem_extract_pos_iff.mp hp
  obtain ⟨q, -, -, hm, -⟩ := scanGo_sound hscan
  obtain ⟨sp1, sp2, sp3, rest, -, -, -, -, hne, -, -⟩ := matchPat_eq_some_iff.mp hm
  rw [hb]
  exact hne

theorem matchKwColonName_ne_nil {kw s v : List Char}
    (h : matchKwColonName kw s = some v) : v ≠ [] := by
  unfold matchKwColonName at h
  split at h
  case isFalse => exact absurd h (by simp)
  case isTrue =>
    split at h
    case h_2 => exact absurd h (by simp)
    case h_1 =>
      split at h
      case isTrue => exact absurd h (by simp)
      case isFalse hne =>
        simp only [Option.some.injEq] at h
        rw [← h]
        exact hne

theorem overrideGo_ne_nil : ∀ {s : List Char} {pw : Bool} {v : List Char},
    overrideGo pw s = some v → v ≠ [] := by
  intro s
  induction s with
  | nil => intro pw v h; exact absurd h (by simp [overrideGo])
  | cons c rest ih =>
    intro pw v h
    rw [show overrideGo pw (c :: rest)
        = if pw then overrideGo (isWordChar c) rest
          else
            match matchKwColonName "from".toList (c :: rest) with
            | some n => some n
            | none =>
              match matchKwColonName "view_name".toList (c :: rest) with
              | some n => some n
              | none => overrideGo (isWordChar c) rest from rfl] at h
    split at h
    case isTrue => exact ih h
    case isFalse =>
      split at h
      case h_1 heq =>
        simp only [Option.some.injEq] at h
        rw [← h]
        exact matchKwColonName_ne_nil heq
      case h_2 =>
        split at h
        case h_1 heq =>
          simp only [Option.some.injEq] at h
          rw [← h]
          exact matchKwColonName_ne_nil heq
        case h_2 => exact ih h

theorem app_join_view_name_ne_nil {expBody : List Char} {j : Block}
    (hj : j ∈ extract_named_blocks expBody "join".toList) :
    app_join_view_name j ≠ [] := by
  unfold app_join_view_name
  cases ho : parse_view_override j.body with
  | none => simpa using extract_name_ne_nil hj
  | some v =>
    simpa using overrideGo_ne_nil ho

/-- C3: a join whose resolved target view name is absent from the registry
yields a row with folder `"Unknown"` and absent description coverage, and
its name enters the missing-primary-key set. -/
theorem claim_C3 (reg : List Char → Option ViewMeta)
    (readFile : List Char → Option (List Char)) (exts : List Char → Option (List Char))
    (modelRel content : List Char) {exp j : Block}
    (hexp : exp ∈ extract_named_blocks (strip_lookml_comments content) "explore".toList)
    (hj : j ∈ app_joins exp)
    (hunres : reg (app_join_view_name j) = none) :
    (app_join_row reg readFile exts modelRel exp j).viewFolder = "Unknown".toList ∧
    (app_join_row reg readFile exts modelRel exp j).coverage = none ∧
    app_join_row reg readFile exts modelRel exp j
      ∈ app_model_rows reg readFile exts modelRel content ∧
    app_join_view_name j ∈ app_views_no_pk reg readFile content := by
  refine ⟨?_, ?_, ?_, ?_⟩
  · simp [app_join_row, hunres]
  · simp [app_join_row, hunres, get_view_description_coverage]
  · refine List.mem_flatMap.mpr ⟨exp, hexp, ?_⟩
    unfold app_explore_rows
    exact List.mem_cons_of_mem _ (List.mem_map.mpr ⟨j, hj, rfl⟩)
  · refine List.mem_flatMap.mpr ⟨exp, hexp, ?_⟩
    refine List.mem_map.mpr ⟨j, ?_, rfl⟩
    refine List.mem_filter.mpr ⟨hj, ?_⟩
    unfold app_join_no_pk
    rw [hunres]
    simpa using app_join_view_name_ne_nil hj

theorem claim_C3_witness :
    (((⟨"orders".toList, " join: customers { } ".toList⟩ : Block)
        ∈ extract_named_blocks
            (strip_lookml_comments "explore: orders { join: customers { } }".toList)
            "explore".toList) ∧
      ((⟨"customers".toList, " ".toList⟩ : Block)
        ∈ app_joins ⟨"orders".toList, " join: customers { } ".toList⟩) ∧
      (fun _ => (none : Option ViewMeta)) (app_join_view_name
        ⟨"customers".toList, " ".toList⟩) = none) ∧
    ((app_join_row (fun _ => none) (fun _ => none) (fun _ => none) "m.model.lkml".toList
        ⟨"orders".toList, " join: customers { } ".toList⟩
        ⟨"customers".toList, " ".toList⟩).viewFolder = "Unknown".toList ∧
      (app_join_row (fun _ => none) (fun _ => none) (fun _ => none) "m.model.lkml".toList
        ⟨"orders".toList, " join: customers { } ".toList⟩
        ⟨"customers".toList, " ".toList⟩).coverage = none ∧
      app_join_row (fun _ => none) (fun _ => none) (fun _ => none) "m.model.lkml".toList
        ⟨"orders".toList, " join: customers { } ".toList⟩
        ⟨"customers".toList, " ".toList⟩
        ∈ app_model_rows (fun _ => none) (fun _ => none) (fun _ => none)
            "m.model.lkml".toList "explore: orders { join: customers { } }".toList ∧
      app_join_view_name ⟨"customers".toList, " ".toList⟩
        ∈ app_views_no_pk (fun _ => none) (fun _ => none)
            "explore: orders { join: customers { } }".toList) :=
  ⟨⟨by decide, by decide, rfl⟩,
    @claim_C3 (fun _ => none) (fun _ => none) (fun _ => none) "m.model.lkml".toList
      "explore: orders { join: customers { } }".toList
      ⟨"orders".toList, " join: customers { } ".toList⟩
      ⟨"customers".toList, " ".toList⟩ (by decide) (by decide) rfl⟩

/-- The function-call heuristic regex matches exactly the texts containing an
identifier-start character whose word run is followed (possibly after
whitespace) by an opening parenthesis. -/
theorem fnCallSearch_iff {g : List Char} :
    fnCallSearch g = true ↔
    ∃ u c w sp v, g = u ++ c :: (w ++ (sp ++ '(' :: v)) ∧ isIdentStart c = true ∧
      w.all isWordChar = true ∧ sp.all isSpaceChar = true := by
  induction g with
  | nil =>
    simp only [fnCallSearch]
    constructor
    · intro h; exact absurd h (by simp)
    · rintro ⟨u, c, w, sp, v, hg, -⟩
      exact absurd hg (by simp)
  | cons d rest ih =>
    rw [show fnCallSearch (d :: rest)
        = ((isIdentStart d
            && ((rest.dropWhile isWordChar).dropWhile isSpaceChar).head? = some '(')
          || fnCallSearch rest) from rfl]
    constructor
    · intro h
      rcases Bool.or_eq_true .. ▸ h with h1 | h2
      · obtain ⟨hid, hhd⟩ := Bool.and_eq_true .. ▸ h1
        have hhd' : ((rest.dropWhile isWordChar).dropWhile isSpaceChar).head? = some '(' := by
          simpa using hhd
        obtain ⟨v, hv⟩ : ∃ v, (rest.dropWhile isWordChar).dropWhile isSpaceChar = '(' :: v := by
          cases hx : (rest.dropWhile isWordChar).dropWhile isSpaceChar with
          | nil => rw [hx] at hhd'; exact absurd hhd' (by simp)
          | cons a t =>
            rw [hx] at hhd'
            simp only [List.head?_cons, Option.some.injEq] at hhd'
            exact ⟨t, by rw [hhd']⟩
        refine ⟨[], d, rest.takeWhile isWordChar,
          (rest.dropWhile isWordChar).takeWhile isSpaceChar, v, ?_, hid,
          List.all_takeWhile, List.all_takeWhile⟩
        simp only [List.nil_append, List.cons.injEq, true_and]
        conv_lhs => rw [← List.takeWhile_append_dropWhile isWordChar rest]
        congr 1
        conv_lhs =>
          rw [← List.takeWhile_append_dropWhile isSpaceChar (rest.dropWhile isWordChar)]
        rw [hv]
      · obtain ⟨u, c, w, sp, v, hg, hid, hw, hsp⟩ := ih.mp h2
        exact ⟨d :: u, c, w, sp, v, by rw [hg]; rfl, hid, hw, hsp⟩
    · rintro ⟨u, c, w, sp, v, hg, hid, hw, hsp⟩
      cases u with
      | cons a u' =>
        simp only [List.cons_append, List.cons.injEq] at hg
        refine Bool.or_eq_true .. ▸ Or.inr (ih.mpr ⟨u', c, w, sp, v, hg.2, hid, hw, hsp⟩)
      | nil =>
        simp only [List.nil_append, List.cons.injEq] at hg
        obtain ⟨rfl, hrest⟩ := hg
        refine Bool.or_eq_true .. ▸ Or.inl (Bool.and_eq_true .. ▸ ⟨hid, ?_⟩)
        have r1 := takeWhile_run (p := isWordChar) (u := w) (v := sp ++ '(' :: v) hw
          (head?_space_run hsp (by decide))
        have r2 := takeWhile_run (p := isSpaceChar) (u := sp) (v := '(' :: v) hsp
          (by intro b hb; simp only [List.head?_cons, Option.some.injEq] at hb; subst hb
              decide)
        rw [hrest, r1.2, r2.2]
        simp

/-- C5: a join body is flagged by the SQL-function heuristic exactly when its
(first) `sql_on: ... ;;` clause exists and the captured content contains an
identifier immediately followed — up to whitespace — by `(`; in particular a
clause reading `a.id = b.id` is never flagged and one reading
`UPPER(a.id) = b.id` always is. -/
theorem claim_C5 :
    (∀ body, hasSqlOnFunction body = true ↔
      ∃ g, searchSqlOn body = some g ∧
        ∃ u c w sp v, g = u ++ c :: (w ++ (sp ++ '(' :: v)) ∧ isIdentStart c = true ∧
          w.all isWordChar = true ∧ sp.all isSpaceChar = true) ∧
    (∀ body g, searchSqlOn body = some g → g = "a.id = b.id".toList →
      hasSqlOnFunction body = false) ∧
    (∀ body g, searchSqlOn body = some g → g = "UPPER(a.id) = b.id".toList →
      hasSqlOnFunction body = true) := by
  refine ⟨?_, ?_, ?_⟩
  · intro body
    unfold hasSqlOnFunction
    cases hs : searchSqlOn body with
    | none =>
      simp only
      constructor
      · intro h; exact absurd h (by simp)
      · rintro ⟨g, hg, -⟩
        exact absurd hg (by simp)
    | some g =>
      simp only
      rw [fnCallSearch_iff]
      constructor
      · intro h
        exact ⟨g, rfl, h⟩
      · rintro ⟨g', hg', h⟩
        obtain rfl : g = g' := by simpa using hg'
        exact h
  · intro body g hs hg
    unfold hasSqlOnFunction
    rw [hs, hg]
    decide
  · intro body g hs hg
    unfold hasSqlOnFunction
    rw [hs, hg]
    decide

theorem claim_C5_witness :
    (searchSqlOn " sql_on: a.id = b.id ;; ".toList = some "a.id = b.id".toList ∧
      searchSqlOn " sql_on: UPPER(a.id) = b.id ;; ".toList
        = some "UPPER(a.id) = b.id".toList) ∧
    (hasSqlOnFunction " sql_on: a.id = b.id ;; ".toList = false ∧
      hasSqlOnFunction " sql_on: UPPER(a.id) = b.id ;; ".toList = true) :=
  ⟨⟨by decide, by decide⟩,
    claim_C5.2.1 " sql_on: a.id = b.id ;; ".toList "a.id = b.id".toList
      (by decide) (by decide),
    claim_C5.2.2 " sql_on: UPPER(a.id) = b.id ;; ".toList "UPPER(a.id) = b.id".toList
      (by decide) (by decide)⟩

/-- C6: the naming check flags a (nonempty) view name exactly when it occurs
among the rows' view names, fails the snake-case regex, and does not belong
to the unresolved (`"Unknown"`-folder) names; `Customer_Orders` fails the
regex, `customer_orders` passes it, and an unresolved name is never flagged
regardless of casing. -/
theorem claim_C6 :
    (∀ rows v, v ≠ [] →
      (v ∈ non_snake_views rows ↔
        (v ∈ rows.map AppRow.viewName ∧ snakeMatch v = false ∧
          v ∉ unknown_views rows))) ∧
    snakeMatch "Customer_Orders".toList = false ∧
    snakeMatch "customer_orders".toList = true ∧
    (∀ rows v, v ∈ unknown_views rows → v ∉ non_snake_views rows) := by
  refine ⟨?_, by decide, by decide, ?_⟩
  · intro rows v hv
    unfold non_snake_views
    rw [List.mem_filter, List.mem_dedup]
    constructor
    · rintro ⟨hmem, hpred⟩
      rw [Bool.and_eq_true, Bool.and_eq_true] at hpred
      obtain ⟨⟨-, h2⟩, h3⟩ := hpred
      exact ⟨hmem, by simpa using h2, by simpa using h3⟩
    · rintro ⟨hmem, h2, h3⟩
      refine ⟨hmem, ?_⟩
      rw [Bool.and_eq_true, Bool.and_eq_true]
      exact ⟨⟨by simpa using hv, by simpa using h2⟩, by simpa using h3⟩
  · intro rows v hu hcon
    obtain ⟨-, hpred⟩ := List.mem_filter.mp hcon
    rw [Bool.and_eq_true] at hpred
    exact (by simpa using hpred.2 : v ∉ unknown_views rows) hu

theorem claim_C6_witness :
    ("Customer_Orders".toList ≠ [] ∧
      "Customer_Orders".toList
        ∈ non_snake_views
            [⟨[], [], [], "Customer_Orders".toList, "marts".toList, none, []⟩] ∧
      "Customer_Orders".toList
        ∈ unknown_views
            [⟨[], [], [], "Customer_Orders".toList, "Unknown".toList, none, []⟩]) ∧
    (("Customer_Orders".toList
        ∈ non_snake_views
            [⟨[], [], [], "Customer_Orders".toList, "marts".toList, none, []⟩] ↔
      ("Customer_Orders".toList
          ∈ ([⟨[], [], [], "Customer_Orders".toList, "marts".toList, none, []⟩]
              : List AppRow).map AppRow.viewName ∧
        snakeMatch "Customer_Orders".toList = false ∧
        "Customer_Orders".toList
          ∉ unknown_views
              [⟨[], [], [], "Customer_Orders".toList, "marts".toList, none, []⟩])) ∧
      "Customer_Orders".toList
        ∉ non_snake_views
            [⟨[], [], [], "Customer_Orders".toList, "Unknown".toList, none, []⟩]) :=
  ⟨⟨by decide, by decide, by decide⟩,
    claim_C6.1 [⟨[], [], [], "Customer_Orders".toList, "marts".toList, none, []⟩]
      "Customer_Orders".toList (by decide),
    claim_C6.2.2.2 [⟨[], [], [], "Customer_Orders".toList, "Unknown".toList, none, []⟩]
      "Customer_Orders".toList (by decide)⟩

theorem regWrite_foldl_not_mem {k : List Char} :
    ∀ (l : List (List Char × ViewMeta)) (m : List Char → Option ViewMeta),
      (∀ r ∈ l, r.1 ≠ k) → (l.foldl regWrite m) k = m k := by
  intro l
  induction l with
  | nil => intro m _; rfl
  | cons r t ih =>
    intro m hne
    rw [List.foldl_cons, ih _ (fun x hx => hne x (List.mem_cons_of_mem _ hx))]
    unfold regWrite
    rw [if_neg]
    exact fun hc => hne r (List.mem_cons_self _ _) (hc.symm ▸ rfl)

theorem regWrite_foldl_mem {k : List Char} {v : ViewMeta} :
    ∀ (l : List (List Char × ViewMeta)) (m : List Char → Option ViewMeta),
      (∀ r ∈ l, r.1 = k → r.2 = v) → (∃ r ∈ l, r.1 = k) →
      (l.foldl regWrite m) k = some v := by
  intro l
  induction l with
  | nil =>
    intro m _ hex
    obtain ⟨r, hr, -⟩ := hex
    exact absurd hr (by simp)
  | cons r t ih =>
    intro m hall hex
    rw [List.foldl_cons]
    by_cases ht : ∃ x ∈ t, x.1 = k
    · exact ih _ (fun x hx => hall x (List.mem_cons_of_mem _ hx)) ht
    · push_neg at ht
      have hrk : r.1 = k := by
        obtain ⟨x, hx, hxk⟩ := hex
        rcases List.mem_cons.mp hx with rfl | hxmem
        · exact hxk
        · exact absurd hxk (ht x hxmem)
      rw [regWrite_foldl_not_mem t _ ht]
      unfold regWrite
      rw [if_pos hrk.symm, hall r (List.mem_cons_self _ _) hrk]

theorem registry_map_eq_stream_foldl :
    ∀ (files : List VFile) (m : List Char → Option ViewMeta),
      files.foldl (fun m f => (file_regs f).foldl regWrite m) m
        = (files.flatMap file_regs).foldl regWrite m := by
  intro files
  induction files with
  | nil => intro m; rfl
  | cons f t ih =>
    intro m
    rw [List.foldl_cons, ih, List.flatMap_cons, List.foldl_append]

theorem multi_view_files_count :
    ∀ (files : List VFile) (r : List Char),
      (multi_view_files files).count r
        = files.countP (fun f =>
            decide (f.rel = r) && decide (1 < (view_header_names f.content).length)) := by
  intro files r
  induction files with
  | nil => rfl
  | cons f t ih =>
    unfold multi_view_files at *
    rw [List.flatMap_cons, List.count_append, ih, List.countP_cons]
    by_cases h1 : 1 < (view_header_names f.content).length
    · rw [if_pos h1]
      by_cases h2 : f.rel = r
      · subst h2
        simp [h1]
        omega
      · rw [List.count_cons]
        simp [h1, h2]
    · rw [if_neg h1]
      simp [h1]

theorem countP_pairwise_distinct {files : List VFile} {f : VFile} (q : VFile → Bool)
    (hdist : files.Pairwise (fun a b => a.rel ≠ b.rel)) (hf : f ∈ files) :
    files.countP (fun g => decide (g.rel = f.rel) && q g) = if q f then 1 else 0 := by
  induction files with
  | nil => exact absurd hf (by simp)
  | cons g t ih =>
    rw [List.countP_cons]
    rw [List.pairwise_cons] at hdist
    rcases List.mem_cons.mp hf with rfl | hmem
    · rw [List.countP_eq_zero.mpr ?_]
      · simp only [Nat.zero_add, decide_eq_true_eq]
        by_cases hq : q f
        · simp [hq]
        · simp [hq]
      · intro x hx
        simp only [Bool.and_eq_true, decide_eq_true_eq, not_and]
        intro hrel
        exact absurd hrel.symm (hdist.1 x hx)
    · rw [ih hdist.2 hmem]
      have : (decide (g.rel = f.rel) && q g) = false := by
        simp only [Bool.and_eq_false_iff, decide_eq_false_iff_not]
        exact Or.inl (fun hc => (hdist.1 f hmem) hc)
      rw [this]
      simp

/-- C7: per entity file, a single header registers exactly that name with the
file's folder and path (and, absent shadowing by other files, the final map
sends the name there, and the file never enters the multiple-definitions
list); with more than one header the file's relative path enters the
multiple-definitions list exactly once regardless of the header count, while
every header name is still registered. -/
theorem claim_C7 {files : List VFile} {f : VFile}
    (hdist : files.Pairwise (fun a b => a.rel ≠ b.rel)) (hf : f ∈ files) :
    (∀ n, view_header_names f.content = [n] →
      file_regs f = [(n, ⟨f.folder, f.path⟩)] ∧
      (multi_view_files files).count f.rel = 0 ∧
      ((∀ g ∈ files, g = f ∨ n ∉ file_found_views g) →
        registry_map files n = some ⟨f.folder, f.path⟩)) ∧
    (1 < (view_header_names f.content).length →
      (multi_view_files files).count f.rel = 1 ∧
      file_regs f = (view_header_names f.content).map (fun n => (n, ⟨f.folder, f.path⟩)) ∧
      ∀ n ∈ view_header_names f.content,
        (n, (⟨f.folder, f.path⟩ : ViewMeta)) ∈ files.flatMap file_regs) := by
  constructor
  · intro n hn
    refine ⟨?_, ?_, ?_⟩
    · unfold file_regs file_found_views
      rw [hn]
      rfl
    · rw [multi_view_files_count,
        countP_pairwise_distinct (fun g => decide (1 < (view_header_names g.content).length))
          hdist hf]
      rw [if_neg]
      simp only [decide_eq_true_eq, not_lt, hn, List.length_cons, List.length_nil]
      omega
    · intro honly
      unfold registry_map
      rw [registry_map_eq_stream_foldl]
      refine regWrite_foldl_mem _ _ ?_ ?_
      · intro r hr hrk
        obtain ⟨g, hg, hrg⟩ := List.mem_flatMap.mp hr
        obtain ⟨nm, hnm, rfl⟩ := List.mem_map.mp hrg
        rcases honly g hg with rfl | hnot
        · rfl
        · exact absurd (hrk ▸ hnm) hnot
      · refine ⟨(n, ⟨f.folder, f.path⟩), ?_, rfl⟩
        refine List.mem_flatMap.mpr ⟨f, hf, ?_⟩
        unfold file_regs file_found_views
        rw [hn]
        exact List.mem_cons_self _ _
  · intro hmulti
    refine ⟨?_, ?_, ?_⟩
    · rw [multi_view_files_count,
        countP_pairwise_distinct (fun g => decide (1 < (view_header_names g.content).length))
          hdist hf]
      rw [if_pos (by simpa using hmulti)]
    · unfold file_regs file_found_views
      rw [if_neg]
      intro hc
      rw [hc] at hmulti
      exact absurd hmulti (by simp)
    · intro n hn
      refine List.mem_flatMap.mpr ⟨f, hf, ?_⟩
      unfold file_regs file_found_views
      rw [if_neg (by intro hc; rw [hc] at hmulti; exact absurd hmulti (by simp))]
      exact List.mem_map.mpr ⟨n, hn, rfl⟩

theorem claim_C7_witness :
    (([⟨"views/a.view.lkml".toList, "a.view.lkml".toList, "(root)".toList, "a".toList,
          "view: alpha".toList⟩,
        ⟨"views/b.view.lkml".toList, "b.view.lkml".toList, "(root)".toList, "b".toList,
          "view: b1\nview: b2".toList⟩] : List VFile).Pairwise
        (fun a b => a.rel ≠ b.rel) ∧
      (⟨"views/a.view.lkml".toList, "a.view.lkml".toList, "(root)".toList, "a".toList,
          "view: alpha".toList⟩ : VFile)
        ∈ ([⟨"views/a.view.lkml".toList, "a.view.lkml".toList, "(root)".toList, "a".toList,
              "view: alpha".toList⟩,
            ⟨"views/b.view.lkml".toList, "b.view.lkml".toList, "(root)".toList, "b".toList,
              "view: b1\nview: b2".toList⟩] : List VFile) ∧
      view_header_names "view: alpha".toList = ["alpha".toList] ∧
      1 < (view_header_names "view: b1\nview: b2".toList).length) ∧
    (file_regs ⟨"views/a.view.lkml".toList, "a.view.lkml".toList, "(root)".toList,
        "a".toList, "view: alpha".toList⟩
      = [("alpha".toList, ⟨"(root)".toList, "views/a.view.lkml".toList⟩)] ∧
      (multi_view_files
          [⟨"views/a.view.lkml".toList, "a.view.lkml".toList, "(root)".toList, "a".toList,
              "view: alpha".toList⟩,
            ⟨"views/b.view.lkml".toList, "b.view.lkml".toList, "(root)".toList, "b".toList,
              "view: b1\nview: b2".toList⟩]).count "a.view.lkml".toList = 0 ∧
      (multi_view_files
          [⟨"views/a.view.lkml".toList, "a.view.lkml".toList, "(root)".toList, "a".toList,
              "view: alpha".toList⟩,
            ⟨"views/b.view.lkml".toList, "b.view.lkml".toList, "(root)".toList, "b".toList,
              "view: b1\nview: b2".toList⟩]).count "b.view.lkml".toList = 1) := by
  refine ⟨⟨by decide, by decide, by decide, by decide⟩, ?_, ?_, ?_⟩
  · exact ((@claim_C7
      [⟨"views/a.view.lkml".toList, "a.view.lkml".toList, "(root)".toList, "a".toList,
          "view: alpha".toList⟩,
        ⟨"views/b.view.lkml".toList, "b.view.lkml".toList, "(root)".toList, "b".toList,
          "view: b1\nview: b2".toList⟩]
      ⟨"views/a.view.lkml".toList, "a.view.lkml".toList, "(root)".toList, "a".toList,
          "view: alpha".toList⟩
      (by decide) (by decide)).1 "alpha".toList (by decide)).1
  · exact ((@claim_C7
      [⟨"views/a.view.lkml".toList, "a.view.lkml".toList, "(root)".toList, "a".toList,
          "view: alpha".toList⟩,
        ⟨"views/b.view.lkml".toList, "b.view.lkml".toList, "(root)".toList, "b".toList,
          "view: b1\nview: b2".toList⟩]
      ⟨"views/a.view.lkml".toList, "a.view.lkml".toList, "(root)".toList, "a".toList,
          "view: alpha".toList⟩
      (by decide) (by decide)).1 "alpha".toList (by decide)).2.1
  · exact ((@claim_C7
      [⟨"views/a.view.lkml".toList, "a.view.lkml".toList, "(root)".toList, "a".toList,
          "view: alpha".toList⟩,
        ⟨"views/b.view.lkml".toList, "b.view.lkml".toList, "(root)".toList, "b".toList,
          "view: b1\nview: b2".toList⟩]
      ⟨"views/b.view.lkml".toList, "b.view.lkml".toList, "(root)".toList, "b".toList,
          "view: b1\nview: b2".toList⟩
      (by decide) (by decide)).2 (by decide)).1

/-- C8: the run aborts fatally exactly when the models directory is absent;
with the directory present it reports the distinct "no data" outcome exactly
when no readable model file yields any explore/join usage row; a single
unreadable file contributes nothing and never aborts the run. -/
theorem claim_C8 (folderMap : List Char → Option (List Char))
    (stats : List Char → Option DescStat) (exts : List Char → Option (List Char)) :
    (∀ mde files, lookml_main folderMap stats exts mde files
        = RunOutcome.fatalNoModelsDir ↔ mde = false) ∧
    (∀ files, lookml_main folderMap stats exts true files = RunOutcome.noData ↔
      model_csv_rows folderMap stats exts files = []) ∧
    (∀ files, model_csv_rows folderMap stats exts files = [] ↔
      ∀ f ∈ files, ∀ content, f.2 = some content → parse_explore_usage content = []) ∧
    RunOutcome.noData ≠ RunOutcome.fatalNoModelsDir ∧
    (∀ l r p, model_csv_rows folderMap stats exts (l ++ (p, none) :: r)
        = model_csv_rows folderMap stats exts (l ++ r) ∧
      lookml_main folderMap stats exts true (l ++ (p, none) :: r)
        ≠ RunOutcome.fatalNoModelsDir) := by
  have hnf : ∀ files, lookml_main folderMap stats exts true files
      ≠ RunOutcome.fatalNoModelsDir := by
    intro files
    unfold lookml_main
    rw [if_neg (by simp)]
    split <;> simp
  refine ⟨?_, ?_, ?_, by simp, ?_⟩
  · intro mde files
    cases mde with
    | false => simp [lookml_main]
    | true => simpa using hnf files
  · intro files
    unfold lookml_main
    rw [if_neg (by simp)]
    split
    case isTrue h => simpa using h
    case isFalse h => simpa using h
  · intro files
    unfold model_csv_rows
    rw [List.flatMap_eq_nil_iff]
    constructor
    · intro h f hf content hc
      have := h f hf
      rw [hc] at this
      simpa using this
    · intro h f hf
      cases hc : f.2 with
      | none => rfl
      | some content =>
        show (parse_explore_usage content).map (enrichUsageRow folderMap stats exts f.1) = []
        rw [h f hf content hc]
        rfl
  · intro l r p
    constructor
    · unfold model_csv_rows
      rw [List.flatMap_append, List.flatMap_cons, List.flatMap_append]
      simp
    · exact hnf _

theorem claim_C8_witness :
    (lookml_main (fun _ => none) (fun _ => none) (fun _ => none) false []
        = RunOutcome.fatalNoModelsDir ↔ false = false) ∧
    (lookml_main (fun _ => none) (fun _ => none) (fun _ => none) true
        [("m".toList, none)] = RunOutcome.noData ↔
      model_csv_rows (fun _ => none) (fun _ => none) (fun _ => none)
        [("m".toList, none)] = []) ∧
    (model_csv_rows (fun _ => none) (fun _ => none) (fun _ => none)
        ([] ++ ("m".toList, (none : Option (List Char))) :: [])
      = model_csv_rows (fun _ => none) (fun _ => none) (fun _ => none) ([] ++ []) ∧
      lookml_main (fun _ => none) (fun _ => none) (fun _ => none) true
        ([] ++ ("m".toList, (none : Option (List Char))) :: [])
        ≠ RunOutcome.fatalNoModelsDir) :=
  ⟨(claim_C8 (fun _ => none) (fun _ => none) (fun _ => none)).1 false [],
    (claim_C8 (fun _ => none) (fun _ => none) (fun _ => none)).2.1 [("m".toList, none)],
    (claim_C8 (fun _ => none) (fun _ => none) (fun _ => none)).2.2.2.2 [] [] "m".toList⟩
